import Mathlib

/-!
Verification of the md-data markdown-to-relational converter.

This file gives a shallow embedding, in Lean 4, of the core pipeline of
`src/ts/index.ts`:

* JavaScript string helpers (`trim`, `toLowerCase`, `ucwords`, `escape`);
* the JavaScript numeric coercions used by type inference (`parseInt`,
  `parseFloat`, string-to-number conversion) modelled over `Int` and `Rat`;
* the `is` and `marker` namespaces and the column-type inferencer `getType`;
* the record data model, the flattener, the identity resolver and schema
  synthesizer `buildMaps`, the row emitter of `toSQL`, and `cleanFlat`;
* the line-oriented parser `fromMD` (records kept in an arena, with parent
  and children as indices, mirroring the mutable object graph of the
  source) and the serializer `toMD` / `mdFlatten`.

Two external collaborators are modelled rather than transcribed, as
`src` does not contain them: `randomUUID` (an injectable generator, here a
counter producing the abstract value `Val.uuidv n`) and the `pluralize`
dependency (regular suffix-rule pluralization).  Rendering of SQL text is
modelled structurally (`SqlVal`) instead of via string formatting.
-/

namespace MD

/-! ## JavaScript string model -/

/-- JavaScript whitespace characters (the common ASCII ones). -/
def jsWhitespace (c : Char) : Bool :=
  c = ' ' || c = '\t' || c = '\n' || c = '\r' || c = '\x0b' || c = '\x0c'

/-- Drop leading whitespace from a character list. -/
def trimL (l : List Char) : List Char := l.dropWhile jsWhitespace

/-- Model of JavaScript `String.prototype.trim`: drop whitespace at both ends. -/
def jsTrimList (l : List Char) : List Char := ((trimL l).reverse.dropWhile jsWhitespace).reverse

/-- Model of `line.trim()` on Lean strings. -/
def jsTrim (s : String) : String := ⟨jsTrimList s.data⟩

/-- ASCII model of JavaScript `toLowerCase` on one character. -/
def lowerChar : Char → Char
  | 'A' => 'a' | 'B' => 'b' | 'C' => 'c' | 'D' => 'd' | 'E' => 'e' | 'F' => 'f'
  | 'G' => 'g' | 'H' => 'h' | 'I' => 'i' | 'J' => 'j' | 'K' => 'k' | 'L' => 'l'
  | 'M' => 'm' | 'N' => 'n' | 'O' => 'o' | 'P' => 'p' | 'Q' => 'q' | 'R' => 'r'
  | 'S' => 's' | 'T' => 't' | 'U' => 'u' | 'V' => 'v' | 'W' => 'w' | 'X' => 'x'
  | 'Y' => 'y' | 'Z' => 'z'
  | c => c

/-- ASCII model of JavaScript `toUpperCase` on one character. -/
def upperChar : Char → Char
  | 'a' => 'A' | 'b' => 'B' | 'c' => 'C' | 'd' => 'D' | 'e' => 'E' | 'f' => 'F'
  | 'g' => 'G' | 'h' => 'H' | 'i' => 'I' | 'j' => 'J' | 'k' => 'K' | 'l' => 'L'
  | 'm' => 'M' | 'n' => 'N' | 'o' => 'O' | 'p' => 'P' | 'q' => 'Q' | 'r' => 'R'
  | 's' => 'S' | 't' => 'T' | 'u' => 'U' | 'v' => 'V' | 'w' => 'W' | 'x' => 'X'
  | 'y' => 'Y' | 'z' => 'Z'
  | c => c

/-- Model of JavaScript `toLowerCase` on strings. -/
def jsToLower (s : String) : String := ⟨s.data.map lowerChar⟩

/-- Split a character list on newline characters, exactly as JavaScript
`split("\n")` does. -/
def splitNl : List Char → List (List Char)
  | [] => [[]]
  | '\n' :: rest => [] :: splitNl rest
  | c :: rest =>
    match splitNl rest with
    | [] => [[c]]
    | w :: ws => (c :: w) :: ws

/-- Split on a single space character, exactly as JavaScript `split(" ")`
(consecutive separators produce empty words). -/
def splitSpace : List Char → List (List Char)
  | [] => [[]]
  | c :: cs =>
    match splitSpace cs with
    | [] => if c = ' ' then [[], []] else [[c]]
    | w :: ws => if c = ' ' then [] :: w :: ws else (c :: w) :: ws

/-- Capitalize the first character of one word, as
`word.substr(0,1).toUpperCase() + word.substr(1)` does. -/
def capWord : List Char → List Char
  | [] => []
  | c :: cs => upperChar c :: cs

/-- Model of `ucwords` from `src/ts/lib/string.ts`: split on spaces,
capitalize the first character of each word, rejoin with spaces. -/
def ucwords (s : String) : String :=
  ⟨List.intercalate [' '] ((splitSpace s.data).map capWord)⟩

/-- Characters replaced by `_` in `escape` (the literal character alternation
of the source regex, together with the whitespace class `\s`). -/
def escapeHit (c : Char) : Bool :=
  jsWhitespace c || c = '!' || c = '"' || c = '%' || c = '^' || c = '&' || c = '*' ||
  c = '(' || c = ')' || c = '[' || c = Char.ofNat 123 || c = ']' || c = Char.ofNat 125 ||
  c = ';' || c = ':' || c = Char.ofNat 39 || c = '@' || c = '#' || c = '~' ||
  c = '<' || c = '>' || c = '.' || c = '?' || c = '/' || c = '\\' || c = '|' ||
  c = Char.ofNat 96 || c = '-' || c = '+' || c = '='

/-- Model of `escape`: replace every matched character by `_`. -/
def escape (name : String) : String :=
  ⟨name.data.map fun c => if escapeHit c then '_' else c⟩

/-! ## Decimal representation of indices

The identity resolver appends a record's positional index to its identity
key with JavaScript string interpolation; `decRepr` models that decimal
rendering. -/

/-- Decimal digit character for a value below ten. -/
def digitChar (n : Nat) : Char := Char.ofNat (48 + n)

/-- Decimal digit list of a natural number, with explicit fuel (any fuel
above the number suffices; structural recursion keeps the definition
kernel-computable). -/
def decReprAux : Nat → Nat → List Char
  | 0, _ => []
  | fuel + 1, n =>
    if n < 10 then [digitChar n]
    else decReprAux fuel (n / 10) ++ [digitChar (n % 10)]

/-- Decimal digit list of a natural number (no leading zeros). -/
def decReprList (n : Nat) : List Char := decReprAux (n + 1) n

/-- Decimal string of a natural number, modelling the template `${i}`. -/
def decRepr (n : Nat) : String := ⟨decReprList n⟩

/-! ## JavaScript numeric coercions

These model the behaviour of `parseInt`, `parseFloat` and string-to-number
conversion (`+s`) on finite decimal and hexadecimal inputs.  `none` stands
for `NaN` (and also for the infinities, which the only consumer,
`is-number`'s finiteness check, rejects as well).  Finite numbers are
modelled as exact rationals, represented as unnormalized integer fractions
(`JNum`) so that every operation is kernel-computable; equality is
cross-multiplication. -/

/-- Exact rational as an unnormalized fraction with positive denominator. -/
structure JNum where
  num : Int
  den : Int
deriving Repr

/-- Equality of fractions by cross-multiplication. -/
def JNum.eqb (a b : JNum) : Bool := a.num * b.den = b.num * a.den

/-- Fraction of an integer. -/
def JNum.ofInt (n : Int) : JNum := ⟨n, 1⟩

/-- Sum of fractions. -/
def JNum.add (a b : JNum) : JNum := ⟨a.num * b.den + b.num * a.den, a.den * b.den⟩

/-- Product of fractions. -/
def JNum.mul (a b : JNum) : JNum := ⟨a.num * b.num, a.den * b.den⟩

/-- Scale a fraction by a signed power of ten. -/
def JNum.mulPow10 (a : JNum) (e : Int) : JNum :=
  if 0 ≤ e then ⟨a.num * (10 ^ e.toNat : Nat), a.den⟩
  else ⟨a.num, a.den * (10 ^ (-e).toNat : Nat)⟩

/-- Scale a fraction by a sign. -/
def JNum.scale (sg : Int) (a : JNum) : JNum := ⟨sg * a.num, a.den⟩

/-- Whether a fraction has no fractional component. -/
def JNum.isWhole (a : JNum) : Bool := a.num % a.den = 0

/-- Value of a decimal digit character, if any. -/
def digitVal? (c : Char) : Option Nat :=
  if '0' ≤ c ∧ c ≤ '9' then some (c.toNat - 48) else none

/-- Value of a hexadecimal digit character, if any. -/
def hexVal? (c : Char) : Option Nat :=
  if '0' ≤ c ∧ c ≤ '9' then some (c.toNat - 48)
  else if 'a' ≤ c ∧ c ≤ 'f' then some (c.toNat - 87)
  else if 'A' ≤ c ∧ c ≤ 'F' then some (c.toNat - 55)
  else none

/-- Numeric value of a digit list under a base. -/
def digitsVal (base : Nat) (f : Char → Option Nat) (l : List Char) : Nat :=
  l.foldl (fun acc c => acc * base + ((f c).getD 0)) 0

/-- Leading decimal digits of a list (the longest prefix). -/
def takeDigits (l : List Char) : List Char := l.takeWhile fun c => (digitVal? c).isSome

/-- Rest after the leading decimal digits. -/
def dropDigits (l : List Char) : List Char := l.dropWhile fun c => (digitVal? c).isSome

/-- Optional sign character; returns the sign as `1` or `-1` and the rest. -/
def takeSign : List Char → Int × List Char
  | '+' :: rest => (1, rest)
  | '-' :: rest => (-1, rest)
  | l => (1, l)

/-- Model of JavaScript `parseInt(s)` (radix unspecified): skip leading
whitespace, optional sign, then either a `0x`/`0X` hexadecimal prefix or a
longest run of decimal digits; trailing characters are ignored.  `none` is
`NaN`. -/
def parseIntJS (s : String) : Option Int :=
  let l := trimL s.data
  let (sg, l) := takeSign l
  match l with
  | '0' :: 'x' :: rest =>
    let ds := rest.takeWhile fun c => (hexVal? c).isSome
    if ds.isEmpty then some 0 else some (sg * digitsVal 16 hexVal? ds)
  | '0' :: 'X' :: rest =>
    let ds := rest.takeWhile fun c => (hexVal? c).isSome
    if ds.isEmpty then some 0 else some (sg * digitsVal 16 hexVal? ds)
  | _ =>
    let ds := takeDigits l
    if ds.isEmpty then none else some (sg * digitsVal 10 digitVal? ds)

/-- Exponent suffix of a decimal literal: `e`/`E`, optional sign, at least
one digit.  Returns the exponent and the rest, or leaves the input alone. -/
def takeExp (l : List Char) : Int × List Char :=
  match l with
  | 'e' :: rest =>
    let (sg, rest') := takeSign rest
    let ds := takeDigits rest'
    if ds.isEmpty then (0, l) else (sg * (digitsVal 10 digitVal? ds : Int), dropDigits rest')
  | 'E' :: rest =>
    let (sg, rest') := takeSign rest
    let ds := takeDigits rest'
    if ds.isEmpty then (0, l) else (sg * (digitsVal 10 digitVal? ds : Int), dropDigits rest')
  | _ => (0, l)

/-- Unsigned decimal-literal prefix: `digits [. digits] [exp]` or
`. digits [exp]`.  Returns its rational value and the rest, or `none` when
no digits are present at all. -/
def takeDecLit (l : List Char) : Option (JNum × List Char) :=
  let ip := takeDigits l
  let l₁ := dropDigits l
  match l₁ with
  | '.' :: rest =>
    let fp := takeDigits rest
    if ip.isEmpty ∧ fp.isEmpty then none
    else
      let l₂ := dropDigits rest
      let (e, l₃) := takeExp l₂
      let mant : JNum := (JNum.ofInt (digitsVal 10 digitVal? ip)).add
        ⟨digitsVal 10 digitVal? fp, (10 ^ fp.length : Nat)⟩
      some (mant.mulPow10 e, l₃)
  | _ =>
    if ip.isEmpty then none
    else
      let (e, l₂) := takeExp l₁
      some ((JNum.ofInt (digitsVal 10 digitVal? ip)).mulPow10 e, l₂)

/-- Model of JavaScript `parseFloat(s)`: skip leading whitespace, optional
sign, then the longest decimal-literal prefix; trailing characters are
ignored.  `none` is `NaN` (the `Infinity` literal, rejected upstream by the
finiteness check, is also mapped to `none`). -/
def parseFloatJS (s : String) : Option JNum :=
  let l := trimL s.data
  let (sg, l) := takeSign l
  match takeDecLit l with
  | some (q, _) => some (JNum.scale sg q)
  | none => none

/-- Model of JavaScript string-to-number conversion `+s` restricted to
finite results: trims whitespace; the empty string converts to `0`; a
`0x`/`0X`, `0b`/`0B` or `0o`/`0O` prefix demands that the whole rest be
digits of that base; otherwise the whole trimmed string must be a signed
decimal literal.  `none` covers `NaN` and the infinities. -/
def jsToNumber (s : String) : Option JNum :=
  let l := jsTrimList s.data
  match l with
  | [] => some (JNum.ofInt 0)
  | '0' :: 'x' :: rest => radixRest 16 hexVal? rest
  | '0' :: 'X' :: rest => radixRest 16 hexVal? rest
  | '0' :: 'b' :: rest => radixRest 2 digitVal? rest
  | '0' :: 'B' :: rest => radixRest 2 digitVal? rest
  | '0' :: 'o' :: rest => radixRest 8 digitVal? rest
  | '0' :: 'O' :: rest => radixRest 8 digitVal? rest
  | _ =>
    let (sg, l') := takeSign l
    match takeDecLit l' with
    | some (q, []) => some (JNum.scale sg q)
    | _ => none
where
  /-- Whole-rest digits of a base (for prefixed literals). -/
  radixRest (base : Nat) (f : Char → Option Nat) (rest : List Char) : Option JNum :=
    if rest ≠ [] ∧ rest.all (fun c => ((f c).isSome ∧ (f c).getD 0 < base : Bool)) then
      some (JNum.ofInt (digitsVal base f rest))
    else none

/-- Model of the `is-number` package on strings: nonempty after trimming,
and the whole string converts to a finite number. -/
def isNumber (s : String) : Bool := jsTrimList s.data ≠ [] && (jsToNumber s).isSome

/-! ## Property values

Property bags map normalized field names to values.  A value is either a
raw string from the document, a generated identifier (`randomUUID` output,
abstracted as a counter), or JavaScript `undefined`. -/

/-- Property value: raw string, generated identifier, or `undefined`. -/
inductive Val where
  | str (s : String)
  | uuidv (n : Nat)
  | undef
deriving DecidableEq, Repr

/-- Property bag: insertion-ordered association list with unique keys
(JavaScript object semantics). -/
abbrev Props := List (String × Val)

/-- Update an existing key in place, or append a new one — JavaScript
object assignment. -/
def setKey : Props → String → Val → Props
  | [], k, v => [(k, v)]
  | (k', v') :: rest, k, v =>
    if k' = k then (k', v) :: rest else (k', v') :: setKey rest k v

/-- Lookup of a key in a bag. -/
def getKey : Props → String → Option Val
  | [], _ => none
  | (k', v') :: rest, k => if k' = k then some v' else getKey rest k

/-- Remove a key from a bag — JavaScript `delete`. -/
def delKey : Props → String → Props
  | [], _ => []
  | (k', v') :: rest, k => if k' = k then delKey rest k else (k', v') :: delKey rest k

/-- Model of `Object.assign(target, source)`: fold the source's entries
into the target in order. -/
def assign (target source : Props) : Props :=
  source.foldl (fun t kv => setKey t kv.1 kv.2) target

/-- JavaScript truthiness of a property value (`""`, `undefined` falsy). -/
def truthy : Val → Bool
  | .str s => s ≠ ""
  | .uuidv _ => true
  | .undef => false

/-! ## The `is` namespace (type-inference predicates) -/

namespace is

/-- Model of `is.integer`: `parseFloat(value) === parseInt(value)`
(`false` when either is `NaN`). -/
def integer (v : String) : Bool :=
  match parseFloatJS v, parseIntJS v with
  | some q, some i => q.eqb (JNum.ofInt i)
  | _, _ => false

/-- Model of `is.boolean`: `[0, 1].includes(parseInt(value))`. -/
def boolean (v : String) : Bool :=
  match parseIntJS v with
  | some i => i = 0 || i = 1
  | none => false

end is

/-- Lift of `isNumber` to property values (generated identifiers and
`undefined` are not numeric strings). -/
def isNumberVal : Val → Bool
  | .str s => isNumber s
  | _ => false

/-- Lift of `is.integer` to property values. -/
def integerVal : Val → Bool
  | .str s => is.integer s
  | _ => false

/-- Lift of `is.boolean` to property values. -/
def booleanVal : Val → Bool
  | .str s => is.boolean s
  | _ => false

/-! ## Column types and `getType` -/

/-- Inferred column type: the SQL name and the TypeScript name. -/
structure MDType where
  sql : String
  js : String
deriving DecidableEq, Repr

/-- Model of `getType`: every value numeric? then boolean-like when more
than one value and all parse to integer `0`/`1`; integer when
`parseFloat === parseInt` throughout; else real.  Any non-numeric value
makes the column textual. -/
def getType (values : List Val) : MDType :=
  if values.all isNumberVal then
    if values.length > 1 ∧ values.all booleanVal then
      ⟨"INTEGER", "boolean"⟩
    else if values.all integerVal then
      ⟨"INTEGER", "number"⟩
    else
      ⟨"REAL", "number"⟩
  else
    ⟨"TEXT", "string"⟩

/-- Decision procedure of spec §4.4, written from the spec's words: TEXT if
any value fails a fully numeric parse of the entire string; else
boolean-like if more than one value and every value is exactly the string
`0` or `1`; else INTEGER if every value parses with no fractional
component; else REAL. -/
def specGetType (values : List String) : MDType :=
  if ¬ values.all isNumber then
    ⟨"TEXT", "string"⟩
  else if values.length > 1 ∧ values.all (fun v => v = "0" || v = "1") then
    ⟨"INTEGER", "boolean"⟩
  else if values.all (fun v => ((jsToNumber v).map JNum.isWhole).getD false) then
    ⟨"INTEGER", "number"⟩
  else
    ⟨"REAL", "number"⟩

/-- Amended decision procedure: as `specGetType`, but the boolean-like test
asks that every value's integer-prefix parse (`parseInt`) be `0` or `1`,
and the integer test asks that every value's decimal parse equal its
integer-prefix parse (`parseFloat === parseInt`). -/
def specGetTypeAmended (values : List String) : MDType :=
  if ¬ values.all isNumber then
    ⟨"TEXT", "string"⟩
  else if values.length > 1 ∧ values.all is.boolean then
    ⟨"INTEGER", "boolean"⟩
  else if values.all is.integer then
    ⟨"INTEGER", "number"⟩
  else
    ⟨"REAL", "number"⟩

/-! ## The `marker` namespace (reference markers)

A reference marker is a value matching `^{.+?}$`: an opening brace, at
least one character (no newline), and a closing brace ending the string. -/

namespace marker

/-- Model of `marker.test` on strings. -/
def testStr (s : String) : Bool :=
  match s.data with
  | c :: rest =>
    c = Char.ofNat 123 && rest.length ≥ 2 && rest.getLast? = some (Char.ofNat 125) &&
      (rest.dropLast.all fun c => c ≠ '\n')
  | [] => false

/-- Model of `marker.test` on property values. -/
def test : Val → Bool
  | .str s => testStr s
  | _ => false

/-- Model of `marker.test` on arrays: `string.some(test)`. -/
def testArr (vs : List Val) : Bool := vs.any test

/-- Model of `marker.strip` on strings: drop the surrounding braces of a
marker, otherwise return the string unchanged. -/
def stripStr (s : String) : String :=
  if testStr s then ⟨s.data.tail.dropLast⟩ else s

/-- Model of `marker.strip` on property values (non-strings unchanged:
`strip` is only reached on marker-tested string values). -/
def strip : Val → Val
  | .str s => .str (stripStr s)
  | v => v

/-- Model of `marker.strip` on arrays: strip the first marker element, or
fall back to the first element (`""` for the empty array, which the
pipeline never produces). -/
def stripArr (vs : List Val) : Val :=
  match vs.find? test with
  | some v => strip v
  | none => vs.headD (.str "")

end marker

/-- String content of a value, for error messages and identity lookups
(markers are always raw strings in the pipeline). -/
def valStr : Val → String
  | .str s => s
  | .uuidv _ => ""
  | .undef => ""

/-! ## Records

`FlatRec` is one record of the flattened sequence: the parent back-reference
is the index of the parent record in that same sequence (the source keeps an
object reference; flattening pushes parents before children, so the index is
well defined).  `Tree` is a record of the hierarchical output of `fromMD`
(parent pointers stripped). -/

/-- Record in the flattened sequence. -/
structure FlatRec where
  name : String
  type : String
  depth : Nat
  props : Props
  parent : Option Nat
deriving DecidableEq, Repr

/-- Record in the hierarchical document tree (no parent link). -/
inductive Tree where
  | node (name type : String) (depth : Nat) (props : Props) (children : List Tree)

/-- Name of a tree record. -/
def Tree.name : Tree → String | .node n _ _ _ _ => n

/-- Type of a tree record. -/
def Tree.type : Tree → String | .node _ t _ _ _ => t

/-- Depth of a tree record. -/
def Tree.depth : Tree → Nat | .node _ _ d _ _ => d

/-- Properties of a tree record. -/
def Tree.props : Tree → Props | .node _ _ _ p _ => p

/-- Children of a tree record. -/
def Tree.children : Tree → List Tree | .node _ _ _ _ c => c

mutual

/-- Model of `flatten` on one record: push the record, then its children
in preorder, each child's parent set to this record's position. -/
def flattenOne (par : Option Nat) (t : Tree) (acc : List FlatRec) : List FlatRec :=
  match t with
  | .node n ty d ps cs =>
    flattenMany (some acc.length) cs (acc ++ [⟨n, ty, d, ps, par⟩])

/-- Model of `flatten` on a list of records. -/
def flattenMany (par : Option Nat) (ts : List Tree) (acc : List FlatRec) : List FlatRec :=
  match ts with
  | [] => acc
  | t :: ts => flattenMany par ts (flattenOne par t acc)

end

/-- Model of `flatten(this.data)`: the preorder sequence with parent
back-references as indices. -/
def flatten (data : List Tree) : List FlatRec := flattenMany none data []

/-! ## The identity resolver and schema synthesizer (`buildMaps`) -/

/-- One synthesized column. -/
structure Column where
  field : String
  property : String
  required : Bool
  type : MDType
deriving DecidableEq, Repr

/-- Accumulating state of one type's table while scanning the flattened
sequence (first loop of `buildMaps`). -/
structure TableAcc where
  raw : List (String × List Val)
  insert : List Nat
  parent : Option Nat
deriving DecidableEq, Repr

/-- Finished table of one type (second loop of `buildMaps`). -/
structure TableData where
  columns : List Column
  keys : List String
  raw : List (String × List Val)
  insert : List Nat
  parent : Option Nat
deriving DecidableEq, Repr

/-- Append a value to a property's raw sample list (creating the property
slot on first sight, preserving first-seen order). -/
def pushRaw : List (String × List Val) → String → Val → List (String × List Val)
  | [], p, v => [(p, [v])]
  | (p', vs) :: rest, p, v =>
    if p' = p then (p', vs ++ [v]) :: rest else (p', vs) :: pushRaw rest p v

/-- Lookup in an association list keyed by strings. -/
def alistGet {α : Type} : List (String × α) → String → Option α
  | [], _ => none
  | (k', a) :: rest, k => if k' = k then some a else alistGet rest k

/-- Update (or append) in an association list keyed by strings. -/
def alistSet {α : Type} : List (String × α) → String → α → List (String × α)
  | [], k, a => [(k, a)]
  | (k', a') :: rest, k, a =>
    if k' = k then (k', a) :: rest else (k', a') :: alistSet rest k a

/-- Identity key of a record at position `i`: the normalized name, made
unconditionally unique by appending `_i` when the record's depth is at most
`unique_depth`. -/
def mkKey (name : String) (depth i uniqueDepth : Nat) : String :=
  if depth ≤ uniqueDepth then name ++ "_" ++ decRepr i else name

/-- State of the first loop of `buildMaps`. -/
structure ResolveState where
  tables : List (String × TableAcc)
  n2r : List (String × List Nat)
  bags : List (String × Props)
  counter : Nat
deriving Repr

/-- Table-accumulation part of one resolver step: push the record on its
type's insert list, keep the first truthy parent, and append its raw
property samples. -/
def tableStep (st : ResolveState) (r : FlatRec) (i : Nat) : TableAcc :=
  let acc := (alistGet st.tables (escape r.type)).getD ⟨[], [], none⟩
  { acc with
    insert := acc.insert ++ [i]
    parent := acc.parent <|> r.parent
    raw := r.props.foldl (fun raws kv => pushRaw raws kv.1 kv.2) acc.raw }

/-- First loop of `buildMaps`, one record at position `i`: collate the
record under its escaped type (schema/insert/raw samples), then merge it
with its identity bag — creating the bag, with a fresh generated
identifier, when the identity key is new — and replace the record's
properties by the merged bag. -/
def resolveStep (ud : Nat) (r : FlatRec) (i : Nat) (st : ResolveState) :
    FlatRec × ResolveState :=
  let tables := alistSet st.tables (escape r.type) (tableStep st r i)
  let key := mkKey r.name r.depth i ud
  let (n2r, bags, counter) :=
    match alistGet st.bags key with
    | some _ => (st.n2r, st.bags, st.counter)
    | none =>
      (alistSet st.n2r key [], alistSet st.bags key [("uuid", .uuidv st.counter)],
        st.counter + 1)
  let bag := (alistGet bags key).getD []
  let merged := assign bag r.props
  let bags := alistSet bags key merged
  let n2r := alistSet n2r key (((alistGet n2r key).getD []) ++ [i])
  ({ r with props := merged }, { tables := tables, n2r := n2r, bags := bags, counter := counter })

/-- Uniqueness and freshness of the generated identifiers held in the
identity bags: every bag's `uuid` is a generated value below the counter,
and bags of distinct identity keys hold distinct identifiers. -/
def BagInv (st : ResolveState) : Prop :=
  (∀ k b, alistGet st.bags k = some b →
    ∃ c, c < st.counter ∧ getKey b "uuid" = some (.uuidv c)) ∧
  (∀ k₁ k₂ b₁ b₂, k₁ ≠ k₂ → alistGet st.bags k₁ = some b₁ → alistGet st.bags k₂ = some b₂ →
    getKey b₁ "uuid" ≠ getKey b₂ "uuid")

/-- First loop of `buildMaps` over the whole flattened sequence (the index
`i` counts positions already processed). -/
def resolveAll (ud : Nat) : List FlatRec → Nat → ResolveState → List FlatRec × ResolveState
  | [], _, st => ([], st)
  | r :: rs, i, st =>
    let (r', st') := resolveStep ud r i st
    let (rs', st'') := resolveAll ud rs (i + 1) st'
    (r' :: rs', st'')

/-- Simple suffix-rule pluralization, modelling the `pluralize` dependency. -/
def plural (s : String) : String := s ++ "s"

/-- Second loop of `buildMaps`, one property of one type: a property whose
raw samples contain a marker becomes a foreign-key column (unshifted) plus
a foreign-key constraint against the referenced type, resolved from the
stripped identity of the first marker sample; resolution failure is a
fatal reference error.  Any other property becomes a plain column with its
inferred type. -/
def buildColumn (flat : List FlatRec) (n2r : List (String × List Nat))
    (ty : String) (p : String) (vs : List Val) (cols : List Column)
    (keys : List String) : Except String (List Column × List String) :=
  if marker.testArr vs then
    let nm := valStr (marker.stripArr vs)
    match alistGet n2r nm with
    | some (j :: _) =>
      let refType := ((flat.get? j).map (·.type)).getD ""
      let fld := escape (ty ++ "_" ++ p ++ "_" ++ refType ++ "_uuid")
      .ok (⟨fld, p, false, ⟨"TEXT", "string"⟩⟩ :: cols,
        keys ++ ["FOREIGN KEY (`" ++ fld ++ "`) REFERENCES `" ++
          plural (escape refType) ++ "` (`" ++ escape refType ++ "_uuid`)"])
    | _ => .error ("Unable to find reference \"" ++ ucwords nm ++ "\"")
  else
    .ok (cols ++ [⟨ty ++ "_" ++ escape p, p, false, getType vs⟩], keys)

/-- Second loop of `buildMaps` over one type's properties in first-seen
order. -/
def buildColumns (flat : List FlatRec) (n2r : List (String × List Nat))
    (ty : String) : List (String × List Val) → List Column → List String →
    Except String (List Column × List String)
  | [], cols, keys => .ok (cols, keys)
  | (p, vs) :: rest, cols, keys => do
    let (cols', keys') ← buildColumn flat n2r ty p vs cols keys
    buildColumns flat n2r ty rest cols' keys'

/-- Insert an element at a position of a list (JavaScript `splice(i, 0, x)`). -/
def insertAt {α : Type} (l : List α) (i : Nat) (a : α) : List α :=
  l.take i ++ [a] ++ l.drop i

/-- Set the internal `_parent` property of every insert record that has a
parent to that parent's current generated identifier. -/
def assignParents (flat : List FlatRec) (idxs : List Nat) : List FlatRec :=
  idxs.foldl
    (fun flat i =>
      match flat.get? i with
      | some r =>
        match r.parent with
        | some pj =>
          let pv := (getKey (((flat.get? pj).map (·.props)).getD []) "uuid").getD .undef
          flat.set i { r with props := setKey r.props "_parent" pv }
        | none => flat
      | none => flat)
    flat

/-- Second loop of `buildMaps`, one type: primary key (composite when the
type has a parent), then per-property columns, then — when the type has a
parent — the `_parent` assignments on its insert records, the unshifted
parent-link column and the spliced foreign-key constraint. -/
def buildTable (ty : String) (acc : TableAcc) (flat : List FlatRec)
    (n2r : List (String × List Nat)) :
    Except String (TableData × List FlatRec) := do
  let uuidCol : Column := ⟨ty ++ "_uuid", "uuid", true, ⟨"TEXT", "string"⟩⟩
  let keys0 :=
    match acc.parent with
    | some pj =>
      let pty := ((flat.get? pj).map (·.type)).getD ""
      ["PRIMARY KEY (`" ++ ty ++ "_" ++ pty ++ "_uuid`, `" ++ ty ++ "_uuid`)"]
    | none => ["PRIMARY KEY (`" ++ ty ++ "_uuid`)"]
  let (cols, keys) ← buildColumns flat n2r ty acc.raw [uuidCol] keys0
  match acc.parent with
  | some pj =>
    let ptyEscape := escape (((flat.get? pj).map (·.type)).getD "")
    let flat' := assignParents flat acc.insert
    let cols' := ⟨ty ++ "_" ++ ptyEscape ++ "_uuid", "_parent", true, ⟨"TEXT", "string"⟩⟩ :: cols
    let keys' := insertAt keys 1
      ("FOREIGN KEY (`" ++ ty ++ "_" ++ ptyEscape ++ "_uuid`) REFERENCES `" ++
        plural ptyEscape ++ "` (`" ++ ptyEscape ++ "_uuid`)")
    .ok (⟨cols', keys', acc.raw, acc.insert, acc.parent⟩, flat')
  | none => .ok (⟨cols, keys, acc.raw, acc.insert, acc.parent⟩, flat)

/-- Second loop of `buildMaps` over all types in first-seen order. -/
def buildTables (flat : List FlatRec) (n2r : List (String × List Nat)) :
    List (String × TableAcc) → Except String (List (String × TableData) × List FlatRec)
  | [] => .ok ([], flat)
  | (ty, acc) :: rest => do
    let (td, flat') ← buildTable ty acc flat n2r
    let (tds, flat'') ← buildTables flat' n2r rest
    .ok ((ty, td) :: tds, flat'')

/-- Output of `buildMaps`. -/
structure BuildOut where
  flat : List FlatRec
  tables : List (String × TableData)
  n2r : List (String × List Nat)
deriving Repr

/-- Model of `buildMaps(unique_depth)` on an already flattened record
sequence. -/
def buildMapsFlat (flat0 : List FlatRec) (ud : Nat) : Except String BuildOut := do
  let (flat1, st) := resolveAll ud flat0 0 ⟨[], [], [], 0⟩
  let (tables, flat2) ← buildTables flat1 st.n2r st.tables
  .ok ⟨flat2, tables, st.n2r⟩

/-- Model of `buildMaps(unique_depth)` on a document's record forest. -/
def buildMaps (data : List Tree) (ud : Nat) : Except String BuildOut :=
  buildMapsFlat (flatten data) ud

/-- Identity-resolution pass alone (the merged record sequence). -/
def resolveFlat (flat : List FlatRec) (ud : Nat) : List FlatRec :=
  (resolveAll ud flat 0 ⟨[], [], [], 0⟩).1

/-- Final resolver state of the identity-resolution pass. -/
def resolveState (flat : List FlatRec) (ud : Nat) : ResolveState :=
  (resolveAll ud flat 0 ⟨[], [], [], 0⟩).2

/-- Identity key of the record at position `i` of a flattened sequence. -/
def keyAt (flat : List FlatRec) (ud i : Nat) : Option String :=
  (flat.get? i).map fun r => mkKey r.name r.depth i ud

/-! ## Row emission and output cleaning (`toSQL`, `toTS`, `cleanFlat`) -/

/-- One emitted SQL value: `NULL`, a quoted string, or a bare numeric. -/
inductive SqlVal where
  | null
  | quoted (v : Val)
  | num (v : Val)
deriving DecidableEq, Repr

/-- Model of the value-emission lambda of `toSQL`'s insert loop: a falsy
property emits `NULL`; a marker resolves through the identity map to the
first resolved record's generated identifier, a missing identity being a
fatal reference error; a numeric value is emitted bare, anything else
quoted. -/
def emitValue (flat : List FlatRec) (n2r : List (String × List Nat))
    (r : FlatRec) (c : Column) : Except String SqlVal :=
  match getKey r.props c.property with
  | some v =>
    if truthy v then
      if marker.test v then
        let nm := valStr (marker.strip v)
        match alistGet n2r nm with
        | some (j :: _) =>
          .ok (.quoted ((getKey (((flat.get? j).map (·.props)).getD []) "uuid").getD .undef))
        | _ => .error ("Unable to find reference \"" ++ ucwords nm ++ "\"")
      else if isNumberVal v then .ok (.num v)
      else .ok (.quoted v)
    else .ok .null
  | none => .ok .null

/-- Emit one insert row (all columns of one record). -/
def emitRow (flat : List FlatRec) (n2r : List (String × List Nat))
    (cols : List Column) (i : Nat) : Except String (List SqlVal) :=
  cols.mapM (emitValue flat n2r (((flat.get? i)).getD ⟨"", "", 0, [], none⟩))

/-- Emit all insert rows of one table. -/
def emitRows (flat : List FlatRec) (n2r : List (String × List Nat))
    (td : TableData) : Except String (List (List SqlVal)) :=
  td.insert.mapM (emitRow flat n2r td.columns)

/-- Model of `cleanFlat`: delete the parent back-reference, the generated
identifier and the internal parent-link property of every flattened
record. -/
def cleanFlat (flat : List FlatRec) : List FlatRec :=
  flat.map fun r => { r with parent := none, props := delKey (delKey r.props "uuid") "_parent" }

/-- Insert rows of every table, in first-seen type order. -/
def tableRows (out : BuildOut) : Except String (List (String × List (List SqlVal))) :=
  out.tables.mapM fun td => do
    let rs ← emitRows out.flat out.n2r td.2
    pure (td.1, rs)

/-- Model of `toSQL(unique_depth)`: build the maps, emit every table's
insert rows (schema text rendering is a stateless formatting step and is
not modelled), then clean the flattened records.  Returns the rows per
type and the cleaned record states. -/
def toSQL (data : List Tree) (ud : Nat) :
    Except String (List (String × List (List SqlVal)) × List FlatRec) := do
  let out ← buildMaps data ud
  let rows ← tableRows out
  .ok (rows, cleanFlat out.flat)

/-- Model of `toTS()`: build the maps (declaration text rendering is not
modelled), then clean the flattened records, which are returned. -/
def toTS (data : List Tree) : Except String (List FlatRec) := do
  let out ← buildMaps data 0
  .ok (cleanFlat out.flat)

/-! ## The heading parser / tree builder (`fromMD`)

The mutable object graph of the source (records pointing at parents and
children) is embedded as an arena: records live in a list, and parent and
children references are indices into it.  `false`/`undefined` parents are
`none`. -/

/-- Type suffix scan: after an opening parenthesis, the lazily matched
`(.+?)\)` captures at least one character up to the first closing
parenthesis after it, or fails when none follows. -/
def typeScan (rest : List Char) : Option (List Char) :=
  match rest with
  | [] => none
  | c :: rem => if ')' ∈ rem then some (c :: rem.takeWhile (· ≠ ')')) else none

/-- Name scan of a heading: the lazily matched name grows until the end of
the line (no type) or until an opening parenthesis from which a type
suffix matches. -/
def nameScan (acc : List Char) : List Char → List Char × Option (List Char)
  | [] => (acc.reverse, none)
  | '(' :: rest =>
    match typeScan rest with
    | some ty => (acc.reverse, some ty)
    | none => nameScan ('(' :: acc) rest
  | c :: rest => nameScan (c :: acc) rest

/-- Model of the heading regex
`^(?<depth>#{1,}\s)(?<name>.+?)($|\((?<type>.+?)\))` on a trimmed line:
returns the count of `#` characters, the raw name group and the raw type
group (absent when the parenthesized suffix is missing). -/
def parseHeading (l : List Char) : Option (Nat × String × Option String) :=
  let n := (l.takeWhile (· = '#')).length
  if n = 0 then none
  else
    match l.drop n with
    | c :: rest =>
      if jsWhitespace c then
        match rest with
        | [] => none
        | c₂ :: rem =>
          let (nm, ty) := nameScan [c₂] rem
          some (n, ⟨nm⟩, ty.map fun t => (⟨t⟩ : String))
      else none
    | [] => none

/-- Property split: the lazily matched `(?<property>.+?): (?<value>.+)`
finds the first `": "` preceded by at least one character and followed by
at least one character. -/
def propSplitAux (acc : List Char) : List Char → Option (List Char × List Char)
  | [] => none
  | c :: rest =>
    if c = ':' ∧ acc ≠ [] then
      match rest with
      | ' ' :: rest' =>
        if rest' ≠ [] then some (acc.reverse, rest')
        else propSplitAux (c :: acc) rest
      | _ => propSplitAux (c :: acc) rest
    else propSplitAux (c :: acc) rest

/-- Model of the property regex `^(-\s{3})?(?<property>.+?): (?<value>.+)`
on a trimmed line: an optional bullet (`-` plus exactly three whitespace
characters), then the name/value split. -/
def parseProperty (l : List Char) : Option (String × String) :=
  let withBullet : Option (List Char × List Char) :=
    match l with
    | '-' :: a :: b :: c :: rest =>
      if jsWhitespace a ∧ jsWhitespace b ∧ jsWhitespace c then propSplitAux [] rest
      else none
    | _ => none
  match withBullet with
  | some (p, v) => some (⟨p⟩, ⟨v⟩)
  | none => (propSplitAux [] l).map fun pv => ((⟨pv.1⟩ : String), (⟨pv.2⟩ : String))

/-- Parser record: tree node held in the arena. -/
structure PRec where
  name : String
  type : String
  depth : Nat
  props : Props
  parent : Option Nat
  children : List Nat
deriving DecidableEq, Repr

/-- Parser state: the arena, the indices of the root records (`feed`), and
the most recently produced record (`previous`). -/
structure PState where
  arena : List PRec
  feed : List Nat
  previous : Option Nat
deriving DecidableEq, Repr

/-- Candidate-parent computation of `fromMD` for a non-root heading of
depth `k` when the most recent record is at index `p`: equal depth moves
one level up (`previous.parent`), smaller depth moves two levels up
(`previous.parent.parent`, provided `previous.parent` exists), larger
depth keeps `previous` itself. -/
def resolveParent (arena : List PRec) (p k : Nat) : Option Nat :=
  match arena.get? p with
  | none => none
  | some pr =>
    if k = pr.depth then pr.parent
    else if k < pr.depth then
      match pr.parent with
      | some q => match arena.get? q with
        | some qr => qr.parent
        | none => none
      | none => some p
    else some p

/-- First existing child of the candidate parent whose name equals the new
record's name (same-document duplicate headings merge into it). -/
def findChild (arena : List PRec) (pIdx : Nat) (nm : String) : Option Nat :=
  (((arena.get? pIdx).map (·.children)).getD []).find? fun ci =>
    ((arena.get? ci).map (·.name)) = some nm

/-- One line of `fromMD`: a heading without a type suffix is a fatal parse
error; a depth-1 heading starts a new root; other headings resolve a
candidate parent, merge into an existing same-named child or attach as a
new child (records whose candidate parent is absent stay unattached); a
non-heading line with a current record may add one property to it. -/
def stepLine (st : PState) (line : String) : Except String PState :=
  let l := jsTrimList line.data
  match parseHeading l with
  | some (k, nm, tyOpt) =>
    match tyOpt with
    | none => .error ("Unknown type for \"" ++ jsTrim nm ++ "\"")
    | some ty =>
      let name := jsToLower (jsTrim nm)
      let type := jsToLower (jsTrim ty)
      let idx := st.arena.length
      if k = 1 then
        .ok ⟨st.arena ++ [⟨name, type, k, [], st.previous, []⟩], st.feed ++ [idx], some idx⟩
      else
        match st.previous with
        | none => .ok ⟨st.arena ++ [⟨name, type, k, [], none, []⟩], st.feed, some idx⟩
        | some p =>
          match resolveParent st.arena p k with
          | none => .ok ⟨st.arena ++ [⟨name, type, k, [], none, []⟩], st.feed, some idx⟩
          | some pIdx =>
            match findChild st.arena pIdx name with
            | some c => .ok ⟨st.arena, st.feed, some c⟩
            | none =>
              match st.arena.get? pIdx with
              | some pr =>
                .ok ⟨(st.arena.set pIdx { pr with children := pr.children ++ [idx] }) ++
                      [⟨name, type, k, [], some pIdx, []⟩], st.feed, some idx⟩
              | none => .ok ⟨st.arena ++ [⟨name, type, k, [], some pIdx, []⟩], st.feed, some idx⟩
  | none =>
    match st.previous with
    | none => .ok st
    | some p =>
      match parseProperty l with
      | some (prop, value) =>
        let v := jsTrim value
        let v := if marker.testStr v then jsToLower v else v
        match st.arena.get? p with
        | some pr =>
          .ok ⟨st.arena.set p { pr with props := setKey pr.props (jsToLower prop) (.str v) },
                st.feed, st.previous⟩
        | none => .ok st
      | none => .ok st

/-- Materialize an arena record as a tree, dropping the parent pointer
(as `removeKeys(object, ["parent"])` does).  The fuel is the arena size;
children always have larger indices than their parent, so it suffices. -/
def toTree : Nat → List PRec → Nat → Tree
  | 0, _, _ => .node "" "" 0 [] []
  | fuel + 1, arena, i =>
    match arena.get? i with
    | none => .node "" "" 0 [] []
    | some r => .node r.name r.type r.depth r.props (r.children.map (toTree fuel arena))

/-- Materialize the root records of a parser state. -/
def materialize (st : PState) : List Tree :=
  st.feed.map (toTree st.arena.length st.arena)

/-- Initial parser state. -/
def initState : PState := ⟨[], [], none⟩

/-- Model of `fromMD` on the list of lines. -/
def fromMDLines (lines : List String) : Except String PState :=
  lines.foldlM stepLine initState

/-- Lines of a document text (`md.split("\n")`). -/
def mdLines (md : String) : List String :=
  (splitNl md.data).map fun l => (⟨l⟩ : String)

/-- Model of `MDDatabase.fromMD`: split the text on newlines, process the
lines, and return the forest of root records. -/
def fromMD (md : String) : Except String (List Tree) := do
  let st ← fromMDLines (mdLines md)
  .ok (materialize st)

/-! ## The serializer (`toMD`) -/

/-- One serialized property line. -/
def propLine (kv : String × Val) : String :=
  let value :=
    match kv.2 with
    | .str s =>
      if marker.testStr s then "\x7b" ++ ucwords (marker.stripStr s) ++ "\x7d" else s
    | _ => ""
  "-   " ++ ucwords kv.1 ++ ": " ++ value

mutual

/-- Model of `mdFlatten`: the heading line, the property block when any
properties exist, and the children's blocks, joined by blank lines and
trimmed. -/
def mdFlatten (t : Tree) : String :=
  match t with
  | .node n ty d ps cs =>
    let heading := (⟨List.replicate d '#'⟩ : String) ++ " " ++ ucwords n ++ " (" ++ ty ++ ")"
    let blocks :=
      if ps.isEmpty then [heading]
      else [heading, String.intercalate "\n" (ps.map propLine)]
    jsTrim (String.intercalate "\n\n" (blocks ++ [String.intercalate "\n\n" (mdFlattenList cs)]))

/-- Model of `mdFlatten` mapped over a list of records. -/
def mdFlattenList : List Tree → List String
  | [] => []
  | t :: ts => mdFlatten t :: mdFlattenList ts

end

/-- Model of `toMD()`: the roots' blocks joined by blank lines, trimmed,
with a trailing newline. -/
def toMD (data : List Tree) : String :=
  jsTrim (String.intercalate "\n\n" (mdFlattenList data)) ++ "\n"

/-- Triple of observable record data (depth, type, normalized name) used
by the round-trip property. -/
def recordTriples (data : List Tree) : List (Nat × String × String) :=
  (flatten data).map fun r => (r.depth, r.type, r.name)

/-- Number of records reachable from a document forest. -/
def recordCount (data : List Tree) : Nat := (flatten data).length

/-- Pointwise characterization of `ucwords`: capitalize the current
character when at a word start (`b`), spaces resetting the word start. -/
def capList (b : Bool) : List Char → List Char
  | [] => []
  | c :: cs =>
    if c = ' ' then ' ' :: capList true cs
    else (if b then upperChar c else c) :: capList false cs

/-- Character data of the serialized depth-1 heading of a record. -/
def hData (n ty : String) : List Char :=
  '#' :: ' ' :: ((ucwords n).data ++ [' ', '('] ++ ty.data ++ [')'])

/-- A normalized, property-free, child-free depth-1 record: the shape on
which serialization is left-inverted by parsing. -/
def FlatRoot (t : Tree) : Prop :=
  t.depth = 1 ∧ t.props = [] ∧ t.children.isEmpty = true ∧
  t.name ≠ "" ∧ jsTrim t.name = t.name ∧ jsToLower t.name = t.name ∧
  '(' ∉ t.name.data ∧ '\n' ∉ t.name.data ∧
  t.type ≠ "" ∧ jsTrim t.type = t.type ∧ jsToLower t.type = t.type ∧
  ')' ∉ t.type.data ∧ '\n' ∉ t.type.data

/-- The line sequence a serialized root-only forest is split into: each
root's block followed by the blank separator line. -/
def rootLines : List Tree → List String
  | [] => []
  | t :: ts => mdFlatten t :: "" :: rootLines ts

/-- Arena records produced by re-parsing a serialized root-only forest:
each root keeps depth 1 and records the previously produced index as its
(unused) parent pointer. -/
def rootRecs : List Tree → Option Nat → Nat → List PRec
  | [], _, _ => []
  | t :: ts, prev, idx => ⟨t.name, t.type, 1, [], prev, []⟩ :: rootRecs ts (some idx) (idx + 1)

/-- Character data of the lines a serialized root-only forest splits
into. -/
def linesData : List Tree → List (List Char)
  | [] => []
  | t :: ts => hData t.name t.type :: [] :: linesData ts

/-- Concrete normalized root-only forest for the round-trip property. -/
def C7data : List Tree :=
  [.node "alpha beta" "episode" 1 [] [], .node "gamma" "show" 1 [] []]

/-! ## Auxiliary definitions used by the verification statements -/

/-- Whether a line is a heading that lacks the parenthesized type suffix
(the fatal-parse-error shape). -/
def badHeading (line : String) : Bool :=
  match parseHeading (jsTrimList line.data) with
  | some (_, _, none) => true
  | _ => false

/-- Name group of a type-less heading line (trimmed, as the parse error
message reports it). -/
def badHeadingName (line : String) : String :=
  match parseHeading (jsTrimList line.data) with
  | some (_, nm, none) => jsTrim nm
  | _ => ""

/-- Foreign-key column and constraint for a reference property (the marker
branch of the synthesizer, as one function). -/
def fkColumnSpec (flat : List FlatRec) (n2r : List (String × List Nat))
    (ty p : String) (vs : List Val) : Except String (Column × String) :=
  let nm := valStr (marker.stripArr vs)
  match alistGet n2r nm with
  | some (j :: _) =>
    let refType := ((flat.get? j).map (·.type)).getD ""
    let fld := escape (ty ++ "_" ++ p ++ "_" ++ refType ++ "_uuid")
    .ok (⟨fld, p, false, ⟨"TEXT", "string"⟩⟩,
      "FOREIGN KEY (`" ++ fld ++ "`) REFERENCES `" ++ plural (escape refType) ++
        "` (`" ++ escape refType ++ "_uuid`)")
  | _ => .error ("Unable to find reference \"" ++ ucwords nm ++ "\"")

/-- Plain column for a non-reference property. -/
def plainColumnSpec (ty p : String) (vs : List Val) : Column :=
  ⟨ty ++ "_" ++ escape p, p, false, getType vs⟩

/-- Foreign-key column and constraint of a reference property resolved to
the record at position `j`. -/
def fkColumnPair (flat : List FlatRec) (_n2r : List (String × List Nat))
    (ty p : String) (_vs : List Val) (j : Nat) : Column × String :=
  let refType := ((flat.get? j).map (·.type)).getD ""
  let fld := escape (ty ++ "_" ++ p ++ "_" ++ refType ++ "_uuid")
  (⟨fld, p, false, ⟨"TEXT", "string"⟩⟩,
    "FOREIGN KEY (`" ++ fld ++ "`) REFERENCES `" ++ plural (escape refType) ++
      "` (`" ++ escape refType ++ "_uuid`)")

/-- Declarative description of the synthesized column/key lists: exactly
the properties with at least one marker sample become foreign-key columns
(collected in reverse first-seen order in front of the accumulated
columns, their constraints appended to the keys in first-seen order), and
exactly the others become plain columns appended in first-seen order. -/
def specSynthesis (flat : List FlatRec) (n2r : List (String × List Nat))
    (ty : String) (raw : List (String × List Val)) (cols : List Column)
    (keys : List String) : Except String (List Column × List String) := do
  let fks ← (raw.filter fun pv => marker.testArr pv.2).mapM
    fun pv => fkColumnSpec flat n2r ty pv.1 pv.2
  .ok ((fks.map Prod.fst).reverse ++ cols ++
    (raw.filter fun pv => ¬ marker.testArr pv.2).map fun pv => plainColumnSpec ty pv.1 pv.2,
    keys ++ fks.map Prod.snd)

/-- Concrete two-record document of the unique-depth scenario. -/
def episodeDoc : String :=
  "# Episode 1 (episode)\nTitle: Pilot\nRating: 5\n\n# Episode 1 (episode)\nTitle: Pilot Two"

/-- Concrete document whose parse re-merges on round-trip serialization. -/
def remergeDoc : String :=
  "# a (t)\n## d (t)\n## b (t)\n#### c (t)\n## b (t)\n### d (t)"

/-- Concrete document whose referenced record carries an own `uuid`
property. -/
def ownUuidRefDoc : String :=
  "# X (t)\nuuid: fake\n\n# Y (u)\nBest: \x7bx\x7d"

/-- Concrete document with a property whose samples mix a reference marker
and a plain value. -/
def mixedMarkerDoc : String :=
  "# A (reft)\n\n# R1 (t)\nP: \x7ba\x7d\n\n# R2 (t)\nP: plain"

/-- Concrete flattened pair of same-named depth-1 records carrying own
`uuid` properties. -/
def ownUuidFlat : List FlatRec :=
  [⟨"a", "t", 1, [("uuid", .str "x")], none⟩, ⟨"a", "t", 1, [("uuid", .str "y")], none⟩]

/-- Two equal-name depth-2 records without own identifier properties (the
merge case of the identity-resolution claims). -/
def C1r : FlatRec := ⟨"a", "t", 2, [("p", .str "v")], none⟩

def C1rs : List FlatRec := [C1r, C1r]

/-- A single clean record of identity key `x`, and a record/column pair
whose property value is the reference marker for `x`. -/
def C2rs : List FlatRec := [⟨"x", "t", 1, [], none⟩]

def C2rec : FlatRec := ⟨"y", "u", 1, [("best", .str "\x7bx\x7d")], none⟩

def C2col : Column := ⟨"u_best", "best", false, ⟨"TEXT", "string"⟩⟩

/-- Is a value one of the generated identifiers? -/
def isGenerated : Val → Bool
  | .uuidv _ => true
  | _ => false

/-- Value of a successful computation, or the fallback. -/
def okOr {ε α : Type} (e : Except ε α) (d : α) : α :=
  match e with
  | .ok a => a
  | .error _ => d

/-- Positions (offset by `i0`) of the records of a sequence whose identity
key is `k`, in order. -/
def keyPositions (ud : Nat) : List FlatRec → Nat → String → List Nat
  | [], _, _ => []
  | r :: rest, i0, k =>
    (if mkKey r.name r.depth i0 ud = k then [i0] else []) ++ keyPositions ud rest (i0 + 1) k

/-- Concrete parent/child forest (a house with one occupant). -/
def houseData : List Tree :=
  [Tree.node "h" "house" 1 [] [Tree.node "o" "occupant" 2 [("age", .str "3")] []]]

end MD

deriving instance DecidableEq for Except

namespace MD

instance : DecidableEq (List (String × List String × List (String × List Val))) :=
  List.hasDecEq

instance (t : Tree) : Decidable (FlatRoot t) := by
  unfold FlatRoot
  infer_instance

/-! ## General lemmas -/

theorem getKey_cons (k₀ : String) (v₀ : Val) (rest : Props) (k : String) :
    getKey ((k₀, v₀) :: rest) k = if k₀ = k then some v₀ else getKey rest k := rfl

theorem delKey_cons (k₀ : String) (v₀ : Val) (rest : Props) (k : String) :
    delKey ((k₀, v₀) :: rest) k =
      if k₀ = k then delKey rest k else (k₀, v₀) :: delKey rest k := rfl

theorem getKey_delKey (ps : Props) (k k' : String) :
    getKey (delKey ps k') k = if k = k' then none else getKey ps k := by
  induction ps with
  | nil => simp [delKey, getKey]
  | cons kv rest ih =>
    obtain ⟨k₀, v₀⟩ := kv
    rw [delKey_cons]
    by_cases h₀ : k₀ = k'
    · rw [if_pos h₀, ih, getKey_cons]
      by_cases hk : k = k'
      · simp [hk]
      · rw [if_neg hk, if_neg hk, if_neg (fun h : k₀ = k => hk (h ▸ h₀))]
    · rw [if_neg h₀, getKey_cons, getKey_cons]
      by_cases hk : k₀ = k
      · rw [if_pos hk, if_neg (fun h : k = k' => h₀ (hk.trans h)), if_pos hk]
      · rw [if_neg hk, ih]
        by_cases hkk : k = k'
        · simp [hkk]
        · rw [if_neg hkk, if_neg hkk, if_neg hk]

theorem cleanFlat_clean (fl : List FlatRec) :
    ∀ r ∈ cleanFlat fl, r.parent = none ∧ getKey r.props "uuid" = none ∧
      getKey r.props "_parent" = none := by
  intro r hr
  unfold cleanFlat at hr
  obtain ⟨r₀, _, rfl⟩ := List.mem_map.mp hr
  refine ⟨rfl, ?_, ?_⟩
  · show getKey (delKey (delKey r₀.props "uuid") "_parent") "uuid" = none
    rw [getKey_delKey, if_neg (by decide), getKey_delKey, if_pos rfl]
  · show getKey (delKey (delKey r₀.props "uuid") "_parent") "_parent" = none
    rw [getKey_delKey, if_pos rfl]

theorem stepLine_error_of_bad (st : PState) (x : String) (h : badHeading x = true) :
    stepLine st x = .error ("Unknown type for \"" ++ badHeadingName x ++ "\"") := by
  unfold badHeading at h
  cases hph : parseHeading (jsTrimList x.data) with
  | none => rw [hph] at h; simp at h
  | some t =>
    obtain ⟨k, nm, tyOpt⟩ := t
    cases tyOpt with
    | none => simp only [badHeadingName, stepLine, hph]
    | some ty => rw [hph] at h; simp at h

theorem stepLine_ok_of_not_bad (st : PState) (x : String) (h : badHeading x = false) :
    ∃ st', stepLine st x = .ok st' := by
  unfold badHeading at h
  cases hph : parseHeading (jsTrimList x.data) with
  | none =>
    simp only [stepLine, hph]
    cases hpr : st.previous with
    | none => exact ⟨st, rfl⟩
    | some p =>
      dsimp only
      cases hpp : parseProperty (jsTrimList x.data) with
      | none => exact ⟨st, rfl⟩
      | some pv =>
        obtain ⟨prop, value⟩ := pv
        dsimp only
        cases hg : st.arena.get? p with
        | none => exact ⟨st, rfl⟩
        | some pr => exact ⟨_, rfl⟩
  | some t =>
    obtain ⟨k, nm, tyOpt⟩ := t
    cases tyOpt with
    | none => rw [hph] at h; simp at h
    | some ty =>
      simp only [stepLine, hph]
      by_cases hk : k = 1
      · rw [if_pos hk]; exact ⟨_, rfl⟩
      · rw [if_neg hk]
        cases hpr : st.previous with
        | none => exact ⟨_, rfl⟩
        | some p =>
          dsimp only
          cases hrp : resolveParent st.arena p k with
          | none => exact ⟨_, rfl⟩
          | some pIdx =>
            dsimp only
            cases hfc : findChild st.arena pIdx (jsToLower (jsTrim nm)) with
            | some c => exact ⟨_, rfl⟩
            | none =>
              dsimp only
              cases hg : st.arena.get? pIdx with
              | some pr => exact ⟨_, rfl⟩
              | none => exact ⟨_, rfl⟩

theorem fromMDLines_first_bad (lines : List String) (l : String)
    (h : lines.find? badHeading = some l) :
    ∀ st : PState, List.foldlM stepLine st lines =
      .error ("Unknown type for \"" ++ badHeadingName l ++ "\"") := by
  induction lines with
  | nil => simp at h
  | cons x xs ih =>
    intro st
    by_cases hx : badHeading x
    · rw [List.find?_cons_of_pos _ hx] at h
      injection h with h; subst h
      rw [List.foldlM_cons, stepLine_error_of_bad st x hx]
      rfl
    · rw [List.find?_cons_of_neg _ (by simpa using hx)] at h
      obtain ⟨st', hst'⟩ := stepLine_ok_of_not_bad st x (by simpa using hx)
      rw [List.foldlM_cons, hst']
      exact ih h st'

/-! ## Bag and association-list lemmas -/

theorem getKey_setKey (ps : Props) (k' k : String) (v : Val) :
    getKey (setKey ps k' v) k = if k' = k then some v else getKey ps k := by
  induction ps with
  | nil => simp [setKey, getKey]
  | cons kv rest ih =>
    obtain ⟨k₀, v₀⟩ := kv
    show getKey (if k₀ = k' then (k₀, v) :: rest else (k₀, v₀) :: setKey rest k' v) k = _
    by_cases h₀ : k₀ = k'
    · rw [if_pos h₀, getKey_cons, getKey_cons]
      by_cases hk : k₀ = k
      · rw [if_pos hk, if_pos (h₀ ▸ hk)]
      · rw [if_neg hk, if_neg (fun h : k' = k => hk (h₀.symm ▸ h : k₀ = k)), if_neg hk]
    · rw [if_neg h₀, getKey_cons, getKey_cons, ih]
      by_cases hk : k₀ = k
      · rw [if_pos hk, if_pos hk, if_neg (fun h : k' = k => h₀ (hk ▸ h.symm : k₀ = k'))]
      · rw [if_neg hk, if_neg hk]

theorem getKey_assign_none (ps : Props) : ∀ (t : Props) (k : String), getKey ps k = none →
    getKey (assign t ps) k = getKey t k := by
  induction ps with
  | nil => intro t k _; rfl
  | cons kv rest ih =>
    intro t k h
    obtain ⟨k₀, v₀⟩ := kv
    rw [getKey_cons] at h
    by_cases h₀ : k₀ = k
    · rw [if_pos h₀] at h; exact absurd h (by simp)
    · rw [if_neg h₀] at h
      show getKey (assign (setKey t k₀ v₀) rest) k = _
      rw [ih _ _ h, getKey_setKey, if_neg h₀]

theorem getKey_assign_some (ps : Props) : ∀ (t : Props) (k : String) (v : Val),
    getKey t k = some v → ∃ v', getKey (assign t ps) k = some v' := by
  induction ps with
  | nil => intro t k v h; exact ⟨v, h⟩
  | cons kv rest ih =>
    intro t k v h
    obtain ⟨k₀, v₀⟩ := kv
    show ∃ v', getKey (assign (setKey t k₀ v₀) rest) k = some v'
    by_cases h₀ : k₀ = k
    · exact ih _ _ v₀ (by rw [getKey_setKey, if_pos h₀])
    · exact ih _ _ v (by rw [getKey_setKey, if_neg h₀]; exact h)

theorem alistGet_cons {α : Type} (k₀ : String) (a₀ : α) (rest : List (String × α))
    (k : String) : alistGet ((k₀, a₀) :: rest) k = if k₀ = k then some a₀ else alistGet rest k :=
  rfl

theorem alistGet_set {α : Type} (m : List (String × α)) (k : String) (a : α) (k' : String) :
    alistGet (alistSet m k a) k' = if k = k' then some a else alistGet m k' := by
  induction m with
  | nil => simp [alistSet, alistGet]
  | cons kv rest ih =>
    obtain ⟨k₀, a₀⟩ := kv
    show alistGet (if k₀ = k then (k₀, a) :: rest else (k₀, a₀) :: alistSet rest k a) k' = _
    by_cases h₀ : k₀ = k
    · rw [if_pos h₀, alistGet_cons, alistGet_cons]
      by_cases hk : k₀ = k'
      · rw [if_pos hk, if_pos (h₀ ▸ hk)]
      · rw [if_neg hk, if_neg (fun h : k = k' => hk (h₀.symm ▸ h : k₀ = k')), if_neg hk]
    · rw [if_neg h₀, alistGet_cons, alistGet_cons, ih]
      by_cases hk : k₀ = k'
      · rw [if_pos hk, if_pos hk, if_neg (fun h : k = k' => h₀ (hk ▸ h.symm : k₀ = k))]
      · rw [if_neg hk, if_neg hk]

theorem alistSet_set_same {α : Type} (m : List (String × α)) (k : String) (a b : α) :
    alistSet (alistSet m k a) k b = alistSet m k b := by
  induction m with
  | nil => simp [alistSet]
  | cons kv rest ih =>
    obtain ⟨k₀, a₀⟩ := kv
    by_cases h₀ : k₀ = k
    · show alistSet (if k₀ = k then (k₀, a) :: rest else _) k b = _
      rw [if_pos h₀]
      show (if k₀ = k then (k₀, b) :: rest else _) = _
      rw [if_pos h₀]
      show _ = (if k₀ = k then (k₀, b) :: rest else _)
      rw [if_pos h₀]
    · show alistSet (if k₀ = k then _ else (k₀, a₀) :: alistSet rest k a) k b = _
      rw [if_neg h₀]
      show (if k₀ = k then _ else (k₀, a₀) :: alistSet (alistSet rest k a) k b) =
        (if k₀ = k then _ else (k₀, a₀) :: alistSet rest k b)
      rw [if_neg h₀, if_neg h₀, ih]

theorem listGet_set {α : Type} (l : List α) : ∀ (i : Nat) (x : α) (j : Nat),
    (l.set i x).get? j = if i = j ∧ j < l.length then some x else l.get? j := by
  induction l with
  | nil => intro i x j; simp [List.set]
  | cons a rest ih =>
    intro i x j
    cases i with
    | zero =>
      cases j with
      | zero => simp
      | succ m => simp [List.set]
    | succ n =>
      cases j with
      | zero => simp [List.set]
      | succ m =>
        show ((rest.set n x).get? m) = _
        rw [ih n x m]
        by_cases h : n = m ∧ m < rest.length
        · rw [if_pos h,
            if_pos (show n + 1 = m + 1 ∧ m + 1 < (a :: rest).length from
              ⟨by omega, by simp only [List.length_cons]; omega⟩)]
        · rw [if_neg h,
            if_neg (fun hc => h ⟨by omega, by
              have := hc.2; simp only [List.length_cons] at this; omega⟩)]
          rfl

/-! ## Resolver-fold lemmas -/

theorem resolveAll_cons (ud : Nat) (r : FlatRec) (rest : List FlatRec) (i0 : Nat)
    (st : ResolveState) :
    resolveAll ud (r :: rest) i0 st =
      ((resolveStep ud r i0 st).1 ::
        (resolveAll ud rest (i0 + 1) (resolveStep ud r i0 st).2).1,
       (resolveAll ud rest (i0 + 1) (resolveStep ud r i0 st).2).2) := rfl

theorem resolveStep_eq_existing (ud : Nat) (r : FlatRec) (i : Nat) (st : ResolveState)
    (b : Props) (hb : alistGet st.bags (mkKey r.name r.depth i ud) = some b) :
    resolveStep ud r i st =
      ({ r with props := assign b r.props },
        ⟨alistSet st.tables (escape r.type) (tableStep st r i),
         alistSet st.n2r (mkKey r.name r.depth i ud)
           (((alistGet st.n2r (mkKey r.name r.depth i ud)).getD []) ++ [i]),
         alistSet st.bags (mkKey r.name r.depth i ud) (assign b r.props),
         st.counter⟩) := by
  simp only [resolveStep, hb, Option.getD_some]

theorem resolveStep_eq_fresh (ud : Nat) (r : FlatRec) (i : Nat) (st : ResolveState)
    (hb : alistGet st.bags (mkKey r.name r.depth i ud) = none) :
    resolveStep ud r i st =
      ({ r with props := assign [("uuid", .uuidv st.counter)] r.props },
        ⟨alistSet st.tables (escape r.type) (tableStep st r i),
         alistSet st.n2r (mkKey r.name r.depth i ud) [i],
         alistSet st.bags (mkKey r.name r.depth i ud)
           (assign [("uuid", .uuidv st.counter)] r.props),
         st.counter + 1⟩) := by
  simp only [resolveStep, hb]
  rw [alistGet_set, if_pos rfl, alistGet_set, if_pos rfl]
  simp only [Option.getD_some, alistSet_set_same]
  rfl

/-! ## Decimal-representation lemmas (uniqueness of synthesized keys) -/

theorem digitVal_digitChar (m : Nat) (h : m < 10) : digitVal? (digitChar m) = some m := by
  interval_cases m <;> decide

theorem digitChar_ne_underscore (m : Nat) (h : m < 10) : digitChar m ≠ '_' := by
  interval_cases m <;> decide

theorem digitsVal_append (b : Nat) (f : Char → Option Nat) (xs : List Char) (c : Char) :
    digitsVal b f (xs ++ [c]) = digitsVal b f xs * b + (f c).getD 0 := by
  unfold digitsVal
  rw [List.foldl_append]
  rfl

theorem decReprAux_val : ∀ (fuel n : Nat), n < fuel →
    digitsVal 10 digitVal? (decReprAux fuel n) = n := by
  intro fuel
  induction fuel with
  | zero => intro n h; omega
  | succ f ih =>
    intro n h
    simp only [decReprAux]
    by_cases h10 : n < 10
    · rw [if_pos h10]
      show 0 * 10 + (digitVal? (digitChar n)).getD 0 = n
      rw [digitVal_digitChar n h10]
      simp
    · rw [if_neg h10, digitsVal_append, ih (n / 10) (by omega),
        digitVal_digitChar (n % 10) (by omega)]
      simp only [Option.getD_some]
      omega

theorem decReprList_val (n : Nat) : digitsVal 10 digitVal? (decReprList n) = n :=
  decReprAux_val (n + 1) n (by omega)

theorem underscore_not_mem_decReprAux : ∀ (fuel n : Nat), '_' ∉ decReprAux fuel n := by
  intro fuel
  induction fuel with
  | zero => intro n; simp [decReprAux]
  | succ f ih =>
    intro n
    simp only [decReprAux]
    by_cases h10 : n < 10
    · rw [if_pos h10]
      intro hm
      simp only [List.mem_singleton] at hm
      exact digitChar_ne_underscore n h10 hm.symm
    · rw [if_neg h10]
      intro hm
      rcases List.mem_append.mp hm with hm | hm
      · exact ih _ hm
      · simp only [List.mem_singleton] at hm
        exact digitChar_ne_underscore (n % 10) (by omega) hm.symm

theorem sep_split_unique {α : Type} [DecidableEq α] (sep : α) :
    ∀ (p q x y : List α), sep ∉ p → sep ∉ q → p ++ sep :: x = q ++ sep :: y →
      p = q ∧ x = y := by
  intro p
  induction p with
  | nil =>
    intro q x y _ hq h
    cases q with
    | nil => simp only [List.nil_append] at h; exact ⟨rfl, (List.cons.injEq .. ▸ h).2⟩
    | cons c q' =>
      simp only [List.nil_append, List.cons_append, List.cons.injEq] at h
      exact absurd (by rw [h.1]; exact List.mem_cons_self c q') hq
  | cons a p' ih =>
    intro q x y hp hq h
    cases q with
    | nil =>
      simp only [List.cons_append, List.nil_append, List.cons.injEq] at h
      exact absurd (by rw [← h.1]; exact List.mem_cons_self a p') hp
    | cons b q' =>
      simp only [List.cons_append, List.cons.injEq] at h
      obtain ⟨hab, hrest⟩ := h
      obtain ⟨hpq, hxy⟩ := ih q' x y (fun hm => hp (List.mem_cons_of_mem _ hm))
        (fun hm => hq (List.mem_cons_of_mem _ hm)) hrest
      exact ⟨by rw [hab, hpq], hxy⟩

theorem string_data_append (s t : String) : (s ++ t).data = s.data ++ t.data := rfl

theorem append_sep_digit_inj (a b : List Char) (i j : Nat)
    (h : a ++ '_' :: decReprList i = b ++ '_' :: decReprList j) : i = j ∧ a = b := by
  have hrev := congrArg List.reverse h
  simp only [List.reverse_append, List.reverse_cons, List.append_assoc,
    List.singleton_append] at hrev
  obtain ⟨hd, ha⟩ := sep_split_unique '_' _ _ _ _
    (fun hm => underscore_not_mem_decReprAux _ _ (List.mem_reverse.mp hm))
    (fun hm => underscore_not_mem_decReprAux _ _ (List.mem_reverse.mp hm)) hrev
  have hdd : decReprList i = decReprList j := by
    have := congrArg List.reverse hd
    simpa using this
  have hab : a = b := by
    have := congrArg List.reverse ha
    simpa using this
  refine ⟨?_, hab⟩
  have := congrArg (digitsVal 10 digitVal?) hdd
  rwa [decReprList_val, decReprList_val] at this

theorem mkKey_low_ne (n₁ n₂ : String) (i j : Nat) (hij : i ≠ j) :
    n₁ ++ "_" ++ decRepr i ≠ n₂ ++ "_" ++ decRepr j := by
  intro h
  have hd := congrArg String.data h
  simp only [string_data_append, List.append_assoc] at hd
  have hd' : n₁.data ++ '_' :: decReprList i = n₂.data ++ '_' :: decReprList j := by
    simpa using hd
  exact hij (append_sep_digit_inj _ _ _ _ hd').1

/-! ## Resolver invariants -/

theorem BagInv_step (ud : Nat) (r : FlatRec) (i : Nat) (st : ResolveState)
    (hr : getKey r.props "uuid" = none) (h : BagInv st) :
    BagInv (resolveStep ud r i st).2 ∧ st.counter ≤ (resolveStep ud r i st).2.counter := by
  cases hb : alistGet st.bags (mkKey r.name r.depth i ud) with
  | some b =>
    rw [resolveStep_eq_existing ud r i st b hb]
    refine ⟨⟨?_, ?_⟩, le_refl _⟩
    · intro k bb hbb
      rw [alistGet_set] at hbb
      by_cases hk : mkKey r.name r.depth i ud = k
      · rw [if_pos hk] at hbb
        injection hbb with hbb
        subst hbb
        obtain ⟨c, hc, hcu⟩ := h.1 _ b hb
        exact ⟨c, hc, by rw [getKey_assign_none r.props b "uuid" hr]; exact hcu⟩
      · rw [if_neg hk] at hbb
        exact h.1 k bb hbb
    · intro k₁ k₂ b₁ b₂ hne h₁ h₂
      rw [alistGet_set] at h₁ h₂
      have huuid : ∀ k bb,
          (if mkKey r.name r.depth i ud = k then some (assign b r.props)
            else alistGet st.bags k) = some bb →
          ∃ bb₀, alistGet st.bags k = some bb₀ ∧ getKey bb "uuid" = getKey bb₀ "uuid" := by
        intro k bb hbb
        by_cases hk : mkKey r.name r.depth i ud = k
        · rw [if_pos hk] at hbb
          injection hbb with hbb
          subst hbb
          exact ⟨b, hk ▸ hb, getKey_assign_none r.props b "uuid" hr⟩
        · rw [if_neg hk] at hbb
          exact ⟨bb, hbb, rfl⟩
      obtain ⟨c₁, hc₁, he₁⟩ := huuid k₁ b₁ h₁
      obtain ⟨c₂, hc₂, he₂⟩ := huuid k₂ b₂ h₂
      rw [he₁, he₂]
      exact h.2 k₁ k₂ c₁ c₂ hne hc₁ hc₂
  | none =>
    rw [resolveStep_eq_fresh ud r i st hb]
    refine ⟨⟨?_, ?_⟩, Nat.le_succ _⟩
    · intro k bb hbb
      rw [alistGet_set] at hbb
      by_cases hk : mkKey r.name r.depth i ud = k
      · rw [if_pos hk] at hbb
        injection hbb with hbb
        subst hbb
        refine ⟨st.counter, Nat.lt_succ_self _, ?_⟩
        rw [getKey_assign_none r.props _ "uuid" hr]
        rfl
      · rw [if_neg hk] at hbb
        obtain ⟨c, hc, hcu⟩ := h.1 k bb hbb
        exact ⟨c, Nat.lt_succ_of_lt hc, hcu⟩
    · intro k₁ k₂ b₁ b₂ hne h₁ h₂
      rw [alistGet_set] at h₁ h₂
      by_cases hk₁ : mkKey r.name r.depth i ud = k₁ <;>
        by_cases hk₂ : mkKey r.name r.depth i ud = k₂
      · exact absurd (hk₁.symm.trans hk₂) hne
      · rw [if_pos hk₁] at h₁
        rw [if_neg hk₂] at h₂
        injection h₁ with h₁
        subst h₁
        obtain ⟨c₂, hc₂, hcu₂⟩ := h.1 k₂ b₂ h₂
        rw [getKey_assign_none r.props _ "uuid" hr, hcu₂]
        show some (Val.uuidv st.counter) ≠ some (Val.uuidv c₂)
        intro hcon
        injection hcon with hcon
        injection hcon with hcon
        omega
      · rw [if_neg hk₁] at h₁
        rw [if_pos hk₂] at h₂
        injection h₂ with h₂
        subst h₂
        obtain ⟨c₁, hc₁, hcu₁⟩ := h.1 k₁ b₁ h₁
        rw [getKey_assign_none r.props _ "uuid" hr, hcu₁]
        show some (Val.uuidv c₁) ≠ some (Val.uuidv st.counter)
        intro hcon
        injection hcon with hcon
        injection hcon with hcon
        omega
      · rw [if_neg hk₁] at h₁
        rw [if_neg hk₂] at h₂
        exact h.2 k₁ k₂ b₁ b₂ hne h₁ h₂

theorem BagInv_resolveAll (ud : Nat) (rs : List FlatRec) :
    ∀ (i0 : Nat) (st : ResolveState), (∀ r ∈ rs, getKey r.props "uuid" = none) →
      BagInv st → BagInv (resolveAll ud rs i0 st).2 := by
  induction rs with
  | nil => intro _ _ _ h; exact h
  | cons r rest ih =>
    intro i0 st hclean h
    rw [resolveAll_cons]
    exact ih (i0 + 1) _ (fun r' hm => hclean r' (List.mem_cons_of_mem _ hm))
      (BagInv_step ud r i0 st (hclean r (List.mem_cons_self _ _)) h).1

theorem BagInv_init : BagInv ⟨[], [], [], 0⟩ := by
  constructor
  · intro k b h
    exact absurd h (by simp [alistGet])
  · intro k₁ k₂ b₁ b₂ _ h₁ _
    exact absurd h₁ (by simp [alistGet])

theorem resolveAll_bag_stable (ud : Nat) (rs : List FlatRec) :
    ∀ (i0 : Nat) (st : ResolveState) (k : String) (b : Props),
      (∀ r ∈ rs, getKey r.props "uuid" = none) →
      alistGet st.bags k = some b →
      ∃ b', alistGet (resolveAll ud rs i0 st).2.bags k = some b' ∧
        getKey b' "uuid" = getKey b "uuid" := by
  induction rs with
  | nil => intro i0 st k b _ hb; exact ⟨b, hb, rfl⟩
  | cons r rest ih =>
    intro i0 st k b hclean hb
    rw [resolveAll_cons]
    have hr : getKey r.props "uuid" = none := hclean r (List.mem_cons_self _ _)
    have hclean' : ∀ r' ∈ rest, getKey r'.props "uuid" = none :=
      fun r' hm => hclean r' (List.mem_cons_of_mem _ hm)
    cases hbk : alistGet st.bags (mkKey r.name r.depth i0 ud) with
    | some b₀ =>
      by_cases hk : mkKey r.name r.depth i0 ud = k
      · have hbb : b₀ = b := by
          rw [hk, hb] at hbk
          injection hbk with h'
          exact h'.symm
        obtain ⟨b', hb', he⟩ := ih (i0 + 1) (resolveStep ud r i0 st).2 k
          (assign b₀ r.props) hclean'
          (by rw [resolveStep_eq_existing ud r i0 st b₀ hbk, alistGet_set, if_pos hk])
        refine ⟨b', hb', ?_⟩
        rw [he, getKey_assign_none r.props b₀ "uuid" hr, hbb]
      · exact ih (i0 + 1) (resolveStep ud r i0 st).2 k b hclean'
          (by rw [resolveStep_eq_existing ud r i0 st b₀ hbk, alistGet_set, if_neg hk]
              exact hb)
    | none =>
      have hk : mkKey r.name r.depth i0 ud ≠ k := by
        intro hkk
        rw [hkk, hb] at hbk
        exact absurd hbk (by simp)
      exact ih (i0 + 1) (resolveStep ud r i0 st).2 k b hclean'
        (by rw [resolveStep_eq_fresh ud r i0 st hbk, alistGet_set, if_neg hk]
            exact hb)

theorem resolveAll_get_uuid (ud : Nat) (rs : List FlatRec) :
    ∀ (i0 : Nat) (st : ResolveState), (∀ r ∈ rs, getKey r.props "uuid" = none) →
      ∀ n r, rs.get? n = some r →
        ∃ r' b, (resolveAll ud rs i0 st).1.get? n = some r' ∧
          r'.name = r.name ∧ r'.depth = r.depth ∧ r'.type = r.type ∧
          alistGet (resolveAll ud rs i0 st).2.bags (mkKey r.name r.depth (i0 + n) ud) =
            some b ∧
          getKey r'.props "uuid" = getKey b "uuid" := by
  induction rs with
  | nil => intro _ _ _ n r hn; simp at hn
  | cons r₀ rest ih =>
    intro i0 st hclean n r hn
    rw [resolveAll_cons]
    have hr₀ : getKey r₀.props "uuid" = none := hclean r₀ (List.mem_cons_self _ _)
    have hclean' : ∀ r' ∈ rest, getKey r'.props "uuid" = none :=
      fun r' hm => hclean r' (List.mem_cons_of_mem _ hm)
    cases n with
    | zero =>
      have hrr : r₀ = r := by
        have h' : some r₀ = some r := hn
        injection h'
      subst hrr
      rw [Nat.add_zero]
      cases hbk : alistGet st.bags (mkKey r₀.name r₀.depth i0 ud) with
      | some b₀ =>
        have hhead : (resolveStep ud r₀ i0 st).1 = { r₀ with props := assign b₀ r₀.props } := by
          rw [resolveStep_eq_existing ud r₀ i0 st b₀ hbk]
        obtain ⟨b', hb', he⟩ := resolveAll_bag_stable ud rest (i0 + 1)
          (resolveStep ud r₀ i0 st).2 (mkKey r₀.name r₀.depth i0 ud)
          (assign b₀ r₀.props) hclean'
          (by rw [resolveStep_eq_existing ud r₀ i0 st b₀ hbk, alistGet_set, if_pos rfl])
        refine ⟨(resolveStep ud r₀ i0 st).1, b', rfl, ?_, ?_, ?_, hb', ?_⟩ <;>
          rw [hhead]
        exact he.symm
      | none =>
        have hhead : (resolveStep ud r₀ i0 st).1 =
            { r₀ with props := assign [("uuid", .uuidv st.counter)] r₀.props } := by
          rw [resolveStep_eq_fresh ud r₀ i0 st hbk]
        obtain ⟨b', hb', he⟩ := resolveAll_bag_stable ud rest (i0 + 1)
          (resolveStep ud r₀ i0 st).2 (mkKey r₀.name r₀.depth i0 ud)
          (assign [("uuid", .uuidv st.counter)] r₀.props) hclean'
          (by rw [resolveStep_eq_fresh ud r₀ i0 st hbk, alistGet_set, if_pos rfl])
        refine ⟨(resolveStep ud r₀ i0 st).1, b', rfl, ?_, ?_, ?_, hb', ?_⟩ <;>
          rw [hhead]
        exact he.symm
    | succ m =>
      have hn' : rest.get? m = some r := hn
      obtain ⟨r', b, h1, h2, h3, h4, h5, h6⟩ :=
        ih (i0 + 1) (resolveStep ud r₀ i0 st).2 hclean' m r hn'
      refine ⟨r', b, h1, h2, h3, h4, ?_, h6⟩
      have harith : i0 + (m + 1) = i0 + 1 + m := by omega
      rw [harith]
      exact h5

theorem resolveAll_bag_sub (ud : Nat) (rs : List FlatRec) :
    ∀ (i0 : Nat) (st : ResolveState) (k : String) (b : Props) (kk : String) (v : Val),
      alistGet st.bags k = some b → getKey b kk = some v →
      ∀ n r, rs.get? n = some r → mkKey r.name r.depth (i0 + n) ud = k →
        ∃ r' v', (resolveAll ud rs i0 st).1.get? n = some r' ∧
          getKey r'.props kk = some v' := by
  induction rs with
  | nil => intro _ _ _ _ _ _ _ _ n r hn _; simp at hn
  | cons r₀ rest ih =>
    intro i0 st k b kk v hb hv n r hn hk
    rw [resolveAll_cons]
    cases n with
    | zero =>
      have hrr : r₀ = r := by
        have h' : some r₀ = some r := hn
        injection h'
      subst hrr
      rw [Nat.add_zero] at hk
      have hhead : (resolveStep ud r₀ i0 st).1 = { r₀ with props := assign b r₀.props } := by
        rw [resolveStep_eq_existing ud r₀ i0 st b (by rw [hk]; exact hb)]
      obtain ⟨v', hv'⟩ := getKey_assign_some r₀.props b kk v hv
      refine ⟨(resolveStep ud r₀ i0 st).1, v', rfl, ?_⟩
      rw [hhead]
      exact hv'
    | succ m =>
      have hn' : rest.get? m = some r := hn
      have harith : i0 + (m + 1) = i0 + 1 + m := by omega
      rw [harith] at hk
      cases hbk : alistGet st.bags (mkKey r₀.name r₀.depth i0 ud) with
      | some b₀ =>
        by_cases hk₀ : mkKey r₀.name r₀.depth i0 ud = k
        · have hbb : b₀ = b := by
            rw [hk₀, hb] at hbk
            injection hbk with h'
            exact h'.symm
          subst hbb
          obtain ⟨v', hv'⟩ := getKey_assign_some r₀.props b₀ kk v hv
          exact ih (i0 + 1) (resolveStep ud r₀ i0 st).2 k (assign b₀ r₀.props) kk v'
            (by rw [resolveStep_eq_existing ud r₀ i0 st b₀ hbk, alistGet_set, if_pos hk₀])
            hv' m r hn' hk
        · exact ih (i0 + 1) (resolveStep ud r₀ i0 st).2 k b kk v
            (by rw [resolveStep_eq_existing ud r₀ i0 st b₀ hbk, alistGet_set, if_neg hk₀]
                exact hb) hv m r hn' hk
      | none =>
        have hk₀ : mkKey r₀.name r₀.depth i0 ud ≠ k := by
          intro hkk
          rw [hkk, hb] at hbk
          exact absurd hbk (by simp)
        exact ih (i0 + 1) (resolveStep ud r₀ i0 st).2 k b kk v
          (by rw [resolveStep_eq_fresh ud r₀ i0 st hbk, alistGet_set, if_neg hk₀]
              exact hb) hv m r hn' hk

theorem resolveAll_props_subset (ud : Nat) (rs : List FlatRec) :
    ∀ (i0 : Nat) (st : ResolveState) (i j : Nat) (ri rj : FlatRec), i < j →
      rs.get? i = some ri → rs.get? j = some rj →
      mkKey ri.name ri.depth (i0 + i) ud = mkKey rj.name rj.depth (i0 + j) ud →
      ∀ ri', (resolveAll ud rs i0 st).1.get? i = some ri' →
        ∀ kk v, getKey ri'.props kk = some v →
          ∃ rj' v', (resolveAll ud rs i0 st).1.get? j = some rj' ∧
            getKey rj'.props kk = some v' := by
  induction rs with
  | nil => intro _ _ i _ _ _ _ hi _ _ _ _ _ _ _; simp at hi
  | cons r₀ rest ih =>
    intro i0 st i j ri rj hij hi hj hkeq ri' hri' kk v hv
    rw [resolveAll_cons] at hri' ⊢
    cases i with
    | zero =>
      obtain ⟨m, rfl⟩ : ∃ m, j = m + 1 := ⟨j - 1, by omega⟩
      have hrr : r₀ = ri := by
        have h' : some r₀ = some ri := hi
        injection h'
      subst hrr
      have hri'' : (resolveStep ud r₀ i0 st).1 = ri' := by
        have h' : some (resolveStep ud r₀ i0 st).1 = some ri' := hri'
        injection h'
      have hj' : rest.get? m = some rj := hj
      rw [Nat.add_zero] at hkeq
      have harith : i0 + (m + 1) = i0 + 1 + m := by omega
      rw [harith] at hkeq
      cases hbk : alistGet st.bags (mkKey r₀.name r₀.depth i0 ud) with
      | some b₀ =>
        have hbag : alistGet (resolveStep ud r₀ i0 st).2.bags
            (mkKey r₀.name r₀.depth i0 ud) = some (assign b₀ r₀.props) := by
          rw [resolveStep_eq_existing ud r₀ i0 st b₀ hbk, alistGet_set, if_pos rfl]
        have hv' : getKey (assign b₀ r₀.props) kk = some v := by
          rw [← hri''] at hv
          rw [resolveStep_eq_existing ud r₀ i0 st b₀ hbk] at hv
          exact hv
        exact resolveAll_bag_sub ud rest (i0 + 1) (resolveStep ud r₀ i0 st).2 _ _ kk v
          hbag hv' m rj hj' hkeq.symm
      | none =>
        have hbag : alistGet (resolveStep ud r₀ i0 st).2.bags
            (mkKey r₀.name r₀.depth i0 ud) =
            some (assign [("uuid", .uuidv st.counter)] r₀.props) := by
          rw [resolveStep_eq_fresh ud r₀ i0 st hbk, alistGet_set, if_pos rfl]
        have hv' : getKey (assign [("uuid", .uuidv st.counter)] r₀.props) kk = some v := by
          rw [← hri''] at hv
          rw [resolveStep_eq_fresh ud r₀ i0 st hbk] at hv
          exact hv
        exact resolveAll_bag_sub ud rest (i0 + 1) (resolveStep ud r₀ i0 st).2 _ _ kk v
          hbag hv' m rj hj' hkeq.symm
    | succ n' =>
      obtain ⟨m, rfl⟩ : ∃ m, j = m + 1 := ⟨j - 1, by omega⟩
      have harith₁ : i0 + (n' + 1) = i0 + 1 + n' := by omega
      have harith₂ : i0 + (m + 1) = i0 + 1 + m := by omega
      rw [harith₁, harith₂] at hkeq
      exact ih (i0 + 1) (resolveStep ud r₀ i0 st).2 n' m ri rj (by omega) hi hj hkeq
        ri' hri' kk v hv

theorem keyPositions_head (ud : Nat) (rs : List FlatRec) :
    ∀ (i0 : Nat) (k : String) (j : Nat) (ps : List Nat),
      keyPositions ud rs i0 k = j :: ps →
      ∃ r, i0 ≤ j ∧ rs.get? (j - i0) = some r ∧ mkKey r.name r.depth j ud = k := by
  induction rs with
  | nil => intro i0 k j ps h; exact absurd h (by simp [keyPositions])
  | cons r rest ih =>
    intro i0 k j ps h
    by_cases hk : mkKey r.name r.depth i0 ud = k
    · rw [keyPositions, if_pos hk] at h
      have h' : i0 :: keyPositions ud rest (i0 + 1) k = j :: ps := h
      injection h' with h1 _
      subst h1
      exact ⟨r, le_refl _, by simp, hk⟩
    · rw [keyPositions, if_neg hk] at h
      have h' : keyPositions ud rest (i0 + 1) k = j :: ps := by simpa using h
      obtain ⟨r', hle, hget, hkey⟩ := ih (i0 + 1) k j ps h'
      refine ⟨r', by omega, ?_, hkey⟩
      have harith : j - i0 = (j - (i0 + 1)) + 1 := by omega
      rw [harith]
      exact hget

theorem resolveAll_n2r (ud : Nat) (rs : List FlatRec) :
    ∀ (i0 : Nat) (st : ResolveState),
      (∀ k, alistGet st.bags k = none ↔ alistGet st.n2r k = none) →
      ∀ k,
        (alistGet st.n2r k = none →
          alistGet (resolveAll ud rs i0 st).2.n2r k =
            if keyPositions ud rs i0 k = [] then none
            else some (keyPositions ud rs i0 k)) ∧
        (∀ l, alistGet st.n2r k = some l →
          alistGet (resolveAll ud rs i0 st).2.n2r k =
            some (l ++ keyPositions ud rs i0 k)) := by
  induction rs with
  | nil =>
    intro i0 st _ k
    constructor
    · intro h
      show alistGet st.n2r k = _
      rw [h, keyPositions, if_pos rfl]
    · intro l h
      show alistGet st.n2r k = _
      rw [h, keyPositions, List.append_nil]
  | cons r rest ih =>
    intro i0 st hsync k
    rw [resolveAll_cons]
    cases hb : alistGet st.bags (mkKey r.name r.depth i0 ud) with
    | some b =>
      have hl₀ : ∃ l₀, alistGet st.n2r (mkKey r.name r.depth i0 ud) = some l₀ := by
        cases hx : alistGet st.n2r (mkKey r.name r.depth i0 ud) with
        | some l₀ => exact ⟨l₀, rfl⟩
        | none => rw [(hsync _).2 hx] at hb; exact absurd hb (by simp)
      obtain ⟨l₀, hl₀⟩ := hl₀
      have hstep : alistGet (resolveStep ud r i0 st).2.n2r k =
          if mkKey r.name r.depth i0 ud = k then some (l₀ ++ [i0])
          else alistGet st.n2r k := by
        rw [resolveStep_eq_existing ud r i0 st b hb]
        show alistGet (alistSet st.n2r _ _) k = _
        rw [alistGet_set, hl₀]
        rfl
      have hsync' : ∀ k', alistGet (resolveStep ud r i0 st).2.bags k' = none ↔
          alistGet (resolveStep ud r i0 st).2.n2r k' = none := by
        intro k'
        rw [resolveStep_eq_existing ud r i0 st b hb]
        show alistGet (alistSet st.bags _ _) k' = none ↔
          alistGet (alistSet st.n2r _ _) k' = none
        rw [alistGet_set, alistGet_set]
        by_cases hk : mkKey r.name r.depth i0 ud = k'
        · rw [if_pos hk, if_pos hk]; simp
        · rw [if_neg hk, if_neg hk]; exact hsync k'
      by_cases hk : mkKey r.name r.depth i0 ud = k
      · constructor
        · intro h
          rw [hk, h] at hl₀
          exact absurd hl₀ (by simp)
        · intro l h
          rw [hk, h] at hl₀
          injection hl₀ with hl₀
          subst hl₀
          have := (ih (i0 + 1) (resolveStep ud r i0 st).2 hsync' k).2 (l ++ [i0])
            (by rw [hstep, if_pos hk])
          rw [this, keyPositions, if_pos hk, List.append_assoc]
      · have hstep' : alistGet (resolveStep ud r i0 st).2.n2r k = alistGet st.n2r k := by
          rw [hstep, if_neg hk]
        have hkp : keyPositions ud (r :: rest) i0 k = keyPositions ud rest (i0 + 1) k := by
          rw [keyPositions, if_neg hk, List.nil_append]
        constructor
        · intro h
          rw [hkp]
          exact (ih (i0 + 1) (resolveStep ud r i0 st).2 hsync' k).1 (hstep'.trans h)
        · intro l h
          rw [hkp]
          exact (ih (i0 + 1) (resolveStep ud r i0 st).2 hsync' k).2 l (hstep'.trans h)
    | none =>
      have hl₀ : alistGet st.n2r (mkKey r.name r.depth i0 ud) = none := (hsync _).1 hb
      have hstep : alistGet (resolveStep ud r i0 st).2.n2r k =
          if mkKey r.name r.depth i0 ud = k then some [i0]
          else alistGet st.n2r k := by
        rw [resolveStep_eq_fresh ud r i0 st hb]
        show alistGet (alistSet st.n2r _ _) k = _
        rw [alistGet_set]
      have hsync' : ∀ k', alistGet (resolveStep ud r i0 st).2.bags k' = none ↔
          alistGet (resolveStep ud r i0 st).2.n2r k' = none := by
        intro k'
        rw [resolveStep_eq_fresh ud r i0 st hb]
        show alistGet (alistSet st.bags _ _) k' = none ↔
          alistGet (alistSet st.n2r _ _) k' = none
        rw [alistGet_set, alistGet_set]
        by_cases hk : mkKey r.name r.depth i0 ud = k'
        · rw [if_pos hk, if_pos hk]; simp
        · rw [if_neg hk, if_neg hk]; exact hsync k'
      by_cases hk : mkKey r.name r.depth i0 ud = k
      · constructor
        · intro _
          have := (ih (i0 + 1) (resolveStep ud r i0 st).2 hsync' k).2 [i0]
            (by rw [hstep, if_pos hk])
          rw [this, keyPositions, if_pos hk]
          rw [if_neg (by simp)]
        · intro l h
          rw [hk, h] at hl₀
          exact absurd hl₀ (by simp)
      · have hstep' : alistGet (resolveStep ud r i0 st).2.n2r k = alistGet st.n2r k := by
          rw [hstep, if_neg hk]
        have hkp : keyPositions ud (r :: rest) i0 k = keyPositions ud rest (i0 + 1) k := by
          rw [keyPositions, if_neg hk, List.nil_append]
        constructor
        · intro h
          rw [hkp]
          exact (ih (i0 + 1) (resolveStep ud r i0 st).2 hsync' k).1 (hstep'.trans h)
        · intro l h
          rw [hkp]
          exact (ih (i0 + 1) (resolveStep ud r i0 st).2 hsync' k).2 l (hstep'.trans h)

theorem resolveState_n2r (rs : List FlatRec) (ud : Nat) (x : String) :
    alistGet (resolveState rs ud).n2r x =
      if keyPositions ud rs 0 x = [] then none
      else some (keyPositions ud rs 0 x) := by
  exact (resolveAll_n2r ud rs 0 ⟨[], [], [], 0⟩ (fun _ => ⟨fun _ => rfl, fun _ => rfl⟩) x).1 rfl

/-! ## Round-trip serialization lemmas (`toMD` then `fromMD`) -/

theorem lowerChar_upperChar (c : Char) : lowerChar (upperChar c) = lowerChar c := by
  unfold upperChar
  split <;> rfl

theorem jsWhitespace_upperChar (c : Char) : jsWhitespace (upperChar c) = jsWhitespace c := by
  unfold upperChar
  split <;> rfl

theorem jsWhitespace_lowerChar (c : Char) : jsWhitespace (lowerChar c) = jsWhitespace c := by
  unfold lowerChar
  split <;> rfl

theorem upperChar_eq_lparen {c : Char} (h : upperChar c = '(') : c = '(' := by
  unfold upperChar at h
  split at h <;> first | exact h | exact absurd h (by decide)

theorem upperChar_eq_nl {c : Char} (h : upperChar c = '\n') : c = '\n' := by
  unfold upperChar at h
  split at h <;> first | exact h | exact absurd h (by decide)

theorem splitSpace_ne_nil (l : List Char) : splitSpace l ≠ [] := by
  cases l with
  | nil => exact fun h => absurd h (by simp [splitSpace])
  | cons c cs =>
    show splitSpace (c :: cs) ≠ []
    unfold splitSpace
    split
    · split <;> exact fun h => absurd h (by simp)
    · split <;> exact fun h => absurd h (by simp)

theorem intercalate_cons_cons {α : Type} (sep : List α) (a b : List α) (l : List (List α)) :
    List.intercalate sep (a :: b :: l) = a ++ sep ++ List.intercalate sep (b :: l) := by
  simp [List.intercalate, List.intersperse]

theorem intercalate_cons_head {α : Type} (sep : List α) (x : α) (w : List α)
    (rest : List (List α)) :
    List.intercalate sep ((x :: w) :: rest) = x :: List.intercalate sep (w :: rest) := by
  cases rest with
  | nil => simp [List.intercalate, List.intersperse]
  | cons b l => rw [intercalate_cons_cons, intercalate_cons_cons]; rfl

theorem capList_cons (b : Bool) (c : Char) (cs : List Char) :
    capList b (c :: cs) = if c = ' ' then ' ' :: capList true cs
      else (if b then upperChar c else c) :: capList false cs := rfl

theorem splitSpace_spec (l : List Char) :
    (List.intercalate [' '] ((splitSpace l).map capWord) = capList true l) ∧
    (∀ w ws, splitSpace l = w :: ws →
      List.intercalate [' '] (w :: ws.map capWord) = capList false l) := by
  induction l with
  | nil =>
    constructor
    · rfl
    · intro w ws h
      have h' : ([[]] : List (List Char)) = w :: ws := h
      injection h' with h1 h2
      subst h1; subst h2
      rfl
  | cons c cs ih =>
    obtain ⟨w, ws, hsp⟩ : ∃ w ws, splitSpace cs = w :: ws := by
      cases hx : splitSpace cs with
      | nil => exact absurd hx (splitSpace_ne_nil cs)
      | cons w ws => exact ⟨w, ws, rfl⟩
    have hstep : splitSpace (c :: cs) =
        if c = ' ' then [] :: w :: ws else (c :: w) :: ws := by
      unfold splitSpace
      rw [hsp]
    by_cases hc : c = ' '
    · subst hc
      rw [hstep, if_pos rfl]
      constructor
      · show List.intercalate [' '] ([] :: (w :: ws).map capWord) = capList true (' ' :: cs)
        simp only [List.map_cons]
        rw [intercalate_cons_cons]
        show ' ' :: List.intercalate [' '] ((w :: ws).map capWord) = _
        rw [← hsp, ih.1]
        rfl
      · intro w₀ ws₀ h₀
        injection h₀ with h1 h2
        subst h1; subst h2
        simp only [List.map_cons]
        rw [intercalate_cons_cons]
        show ' ' :: List.intercalate [' '] ((w :: ws).map capWord) = _
        rw [← hsp, ih.1]
        rfl
    · rw [hstep, if_neg hc]
      have hB := ih.2 w ws hsp
      constructor
      · show List.intercalate [' '] ((capWord (c :: w)) :: ws.map capWord) = _
        show List.intercalate [' '] ((upperChar c :: w) :: ws.map capWord) = _
        rw [intercalate_cons_head]
        rw [hB]
        rw [capList_cons, if_neg hc]
        rfl
      · intro w₀ ws₀ h₀
        injection h₀ with h1 h2
        subst h1; subst h2
        rw [intercalate_cons_head, hB]
        rw [capList_cons, if_neg hc]
        rfl

theorem ucwords_data (s : String) : (ucwords s).data = capList true s.data :=
  (splitSpace_spec s.data).1

theorem capList_map_lower : ∀ (b : Bool) (l : List Char),
    (capList b l).map lowerChar = l.map lowerChar := by
  intro b l
  induction l generalizing b with
  | nil => rfl
  | cons c cs ih =>
    rw [capList_cons]
    by_cases hc : c = ' '
    · subst hc
      rw [if_pos rfl, List.map_cons, List.map_cons, ih]
    · rw [if_neg hc, List.map_cons, List.map_cons, ih]
      cases b with
      | true => rw [if_pos rfl, lowerChar_upperChar]
      | false => rw [if_neg (by decide)]

theorem capList_mem : ∀ (b : Bool) (l : List Char) (c' : Char), c' ∈ capList b l →
    ∃ c, c ∈ l ∧ (c' = c ∨ c' = upperChar c) := by
  intro b l
  induction l generalizing b with
  | nil => intro c' h; exact absurd h (by simp [capList])
  | cons c cs ih =>
    intro c' h
    rw [capList_cons] at h
    by_cases hc : c = ' '
    · rw [if_pos hc] at h
      rcases List.mem_cons.mp h with h₀ | h₀
      · exact ⟨c, List.mem_cons_self _ _, Or.inl (h₀.trans hc.symm)⟩
      · obtain ⟨d, hd, ho⟩ := ih true c' h₀
        exact ⟨d, List.mem_cons_of_mem _ hd, ho⟩
    · rw [if_neg hc] at h
      rcases List.mem_cons.mp h with h₀ | h₀
      · cases b with
        | true => exact ⟨c, List.mem_cons_self _ _, Or.inr (by simpa using h₀)⟩
        | false => exact ⟨c, List.mem_cons_self _ _, Or.inl (by simpa using h₀)⟩
      · obtain ⟨d, hd, ho⟩ := ih false c' h₀
        exact ⟨d, List.mem_cons_of_mem _ hd, ho⟩

theorem lparen_not_mem_capList (b : Bool) (l : List Char) (h : '(' ∉ l) :
    '(' ∉ capList b l := by
  intro hmem
  obtain ⟨c, hc, ho⟩ := capList_mem b l '(' hmem
  rcases ho with ho | ho
  · exact h (ho ▸ hc)
  · exact h ((upperChar_eq_lparen ho.symm) ▸ hc)

theorem nl_not_mem_capList (b : Bool) (l : List Char) (h : '\n' ∉ l) :
    '\n' ∉ capList b l := by
  intro hmem
  obtain ⟨c, hc, ho⟩ := capList_mem b l '\n' hmem
  rcases ho with ho | ho
  · exact h (ho ▸ hc)
  · exact h ((upperChar_eq_nl ho.symm) ▸ hc)

theorem capList_cons_shape (c : Char) (cs : List Char) (b : Bool) :
    ∃ u us, capList b (c :: cs) = u :: us := by
  rw [capList_cons]
  by_cases hc : c = ' '
  · rw [if_pos hc]; exact ⟨_, _, rfl⟩
  · rw [if_neg hc]; exact ⟨_, _, rfl⟩

theorem jsTrimList_eq_self {l : List Char}
    (h1 : ∀ c, l.head? = some c → jsWhitespace c = false)
    (h2 : ∀ c, l.getLast? = some c → jsWhitespace c = false) :
    jsTrimList l = l := by
  cases hl : l with
  | nil => rfl
  | cons c cs =>
    subst hl
    show ((List.dropWhile jsWhitespace (c :: cs)).reverse.dropWhile jsWhitespace).reverse = _
    rw [List.dropWhile_cons, if_neg (by rw [h1 c rfl]; exact fun h => absurd h (by decide))]
    cases hr : (c :: cs).reverse with
    | nil => exact absurd hr (by simp)
    | cons d ds =>
      rw [List.dropWhile_cons,
        if_neg (by
          have hd : (c :: cs).getLast? = some d := by
            rw [← List.head?_reverse, hr]; rfl
          rw [h2 d hd]; exact fun h => absurd h (by decide))]
      rw [← hr, List.reverse_reverse]

theorem jsTrimList_append_ws {l : List Char} {c : Char} (hc : jsWhitespace c = true) :
    jsTrimList (l ++ [c]) = jsTrimList l := by
  show ((List.dropWhile jsWhitespace (l ++ [c])).reverse.dropWhile jsWhitespace).reverse =
    ((List.dropWhile jsWhitespace l).reverse.dropWhile jsWhitespace).reverse
  rw [List.dropWhile_append]
  by_cases he : (List.dropWhile jsWhitespace l).isEmpty = true
  · rw [if_pos he]
    rw [List.isEmpty_iff] at he
    rw [he]
    show ((List.dropWhile jsWhitespace [c]).reverse.dropWhile jsWhitespace).reverse = _
    rw [List.dropWhile_cons, if_pos hc]
    rfl
  · rw [if_neg he]
    rw [List.reverse_append, List.reverse_singleton, List.singleton_append,
      List.dropWhile_cons, if_pos hc]

theorem jsTrimList_map {f : Char → Char} (hf : ∀ c, jsWhitespace (f c) = jsWhitespace c)
    (l : List Char) : jsTrimList (l.map f) = (jsTrimList l).map f := by
  have hfun : (jsWhitespace ∘ f) = jsWhitespace := funext fun c => hf c
  show ((List.dropWhile jsWhitespace (l.map f)).reverse.dropWhile jsWhitespace).reverse = _
  rw [List.dropWhile_map, hfun, ← List.map_reverse, List.dropWhile_map, hfun, ← List.map_reverse]
  rfl

theorem splitNl_cons_ne (c : Char) (cs : List Char) (hc : c ≠ '\n') :
    splitNl (c :: cs) = match splitNl cs with
      | [] => [[c]]
      | w :: ws => (c :: w) :: ws := by
  conv_lhs => unfold splitNl
  split
  · rename_i h; exact absurd h (by simp)
  · rename_i rest h
    injection h with h1 h2
    exact absurd h1 hc
  · rename_i c' rest h
    injection h with h1 h2
    subst h1
    subst h2
    rfl

theorem splitNl_no_nl {l : List Char} (h : '\n' ∉ l) : splitNl l = [l] := by
  induction l with
  | nil => rfl
  | cons c cs ih =>
    have hc : c ≠ '\n' := fun hcc => h (hcc ▸ List.mem_cons_self _ _)
    rw [splitNl_cons_ne c cs hc, ih (fun hm => h (List.mem_cons_of_mem _ hm))]

theorem splitNl_append_nl {a : List Char} (r : List Char) (h : '\n' ∉ a) :
    splitNl (a ++ '\n' :: r) = a :: splitNl r := by
  induction a with
  | nil => rfl
  | cons c a' ih =>
    have hc : c ≠ '\n' := fun hcc => h (hcc ▸ List.mem_cons_self _ _)
    show splitNl (c :: (a' ++ '\n' :: r)) = _
    rw [splitNl_cons_ne c _ hc, ih (fun hm => h (List.mem_cons_of_mem _ hm))]

theorem intercalate_go_append (s x y : String) : ∀ (rest : List String),
    String.intercalate.go (x ++ y) s rest = x ++ String.intercalate.go y s rest := by
  intro rest
  induction rest generalizing y with
  | nil => rfl
  | cons a as ih =>
    show String.intercalate.go (x ++ y ++ s ++ a) s as = _
    rw [String.append_assoc x y s, String.append_assoc x (y ++ s) a, ih ((y ++ s) ++ a)]
    rfl

theorem string_intercalate_cons_cons (s a b : String) (rest : List String) :
    String.intercalate s (a :: b :: rest) = a ++ s ++ String.intercalate s (b :: rest) := by
  show String.intercalate.go a s (b :: rest) = _
  show String.intercalate.go (a ++ s ++ b) s rest = _
  rw [intercalate_go_append s (a ++ s) b rest]
  rfl

theorem string_intercalate_pair (s a b : String) :
    String.intercalate s [a, b] = a ++ s ++ b := rfl

theorem takeWhile_ne_rparen : ∀ {ts : List Char}, ')' ∉ ts →
    (ts ++ [')']).takeWhile (fun c => c ≠ ')') = ts := by
  intro ts
  induction ts with
  | nil => intro _; rfl
  | cons t ts ih =>
    intro h
    have ht : t ≠ ')' := fun hh => h (hh ▸ List.mem_cons_self _ _)
    show List.takeWhile _ (t :: (ts ++ [')'])) = _
    rw [List.takeWhile_cons, if_pos (by simp [ht]), ih (fun hm => h (List.mem_cons_of_mem _ hm))]

theorem typeScan_exact {tyd : List Char} (hne : tyd ≠ []) (h : ')' ∉ tyd) :
    typeScan (tyd ++ [')']) = some tyd := by
  cases tyd with
  | nil => exact absurd rfl hne
  | cons t ts =>
    show typeScan (t :: (ts ++ [')'])) = _
    unfold typeScan
    dsimp only
    rw [if_pos (List.mem_append_right _ (List.mem_singleton.mpr rfl))]
    rw [takeWhile_ne_rparen (fun hm => h (List.mem_cons_of_mem _ hm))]

theorem nameScan_cons_ne (acc : List Char) (c : Char) (rest : List Char) (hc : c ≠ '(') :
    nameScan acc (c :: rest) = nameScan (c :: acc) rest := by
  conv_lhs => unfold nameScan
  split
  · rename_i h; exact absurd h (by simp)
  · rename_i r h
    injection h with h1 h2
    exact absurd h1 hc
  · rename_i c' r h
    injection h with h1 h2
    subst h1
    subst h2
    rfl

theorem nameScan_through : ∀ (xs acc tyd : List Char), '(' ∉ xs → ')' ∉ tyd → tyd ≠ [] →
    nameScan acc (xs ++ '(' :: (tyd ++ [')'])) = (acc.reverse ++ xs, some tyd) := by
  intro xs
  induction xs with
  | nil =>
    intro acc tyd _ hrp hne
    show nameScan acc ('(' :: (tyd ++ [')'])) = _
    conv_lhs => unfold nameScan
    split
    · rename_i h; exact absurd h (by simp)
    · rename_i r h
      injection h with h1 h2
      subst h2
      rw [typeScan_exact hne hrp]
      simp
    · rename_i c' r h hne2
      injection hne2 with h1 h2
      exact absurd h1.symm h
  | cons c xs' ih =>
    intro acc tyd hlp hrp hne
    have hc : c ≠ '(' := fun hh => hlp (hh ▸ List.mem_cons_self _ _)
    show nameScan acc (c :: (xs' ++ '(' :: (tyd ++ [')']))) = _
    rw [nameScan_cons_ne _ _ _ hc,
      ih (c :: acc) tyd (fun hm => hlp (List.mem_cons_of_mem _ hm)) hrp hne]
    rw [List.reverse_cons, List.append_assoc, List.singleton_append]

theorem string_data_ne_nil {n : String} (hn : n ≠ "") : n.data ≠ [] := by
  intro h
  apply hn
  cases n with
  | mk d => cases h; rfl

theorem ucwords_data_shape {n : String} (hn : n ≠ "") :
    ∃ u us, (ucwords n).data = u :: us := by
  rw [ucwords_data]
  cases hnd : n.data with
  | nil => exact absurd hnd (string_data_ne_nil hn)
  | cons c cs => exact capList_cons_shape c cs true

theorem parseHeading_hData (n ty : String) (hn : n ≠ "") (hty : ty ≠ "")
    (hlp : '(' ∉ (ucwords n).data) (hrp : ')' ∉ ty.data) :
    parseHeading (hData n ty) = some (1, ⟨(ucwords n).data ++ [' ']⟩, some ty) := by
  obtain ⟨u, us, hu⟩ := ucwords_data_shape hn
  have hstep : hData n ty = '#' :: ' ' :: u :: ((us ++ [' ']) ++ '(' :: (ty.data ++ [')'])) := by
    rw [hData, hu]
    simp [List.append_assoc]
  have hlp' : '(' ∉ us ++ [' '] := by
    intro hm
    rcases List.mem_append.mp hm with hm | hm
    · exact hlp (hu ▸ List.mem_cons_of_mem _ hm)
    · exact absurd (List.mem_singleton.mp hm) (by decide)
  have hns := nameScan_through (us ++ [' ']) [u] ty.data hlp' hrp
    (fun hh => hty (by cases ty with | mk d => cases hh; rfl))
  rw [hstep]
  show some (1, (⟨(nameScan [u] ((us ++ [' ']) ++ '(' :: (ty.data ++ [')']))).1⟩ : String),
      (nameScan [u] ((us ++ [' ']) ++ '(' :: (ty.data ++ [')']))).2.map
        fun t => (⟨t⟩ : String)) = _
  rw [hns]
  show some (1, (⟨u :: (us ++ [' '])⟩ : String), some (⟨ty.data⟩ : String)) = _
  rw [show (u :: (us ++ [' '])) = (u :: us) ++ [' '] from rfl, ← hu]

theorem name_norm (n : String) (ht : jsTrim n = n) (hl : jsToLower n = n) :
    jsToLower (jsTrim ⟨(ucwords n).data ++ [' ']⟩) = n := by
  have h1 : List.map lowerChar n.data = n.data := congrArg String.data hl
  have h2 : jsTrimList n.data = n.data := congrArg String.data ht
  show (⟨(jsTrimList ((ucwords n).data ++ [' '])).map lowerChar⟩ : String) = n
  rw [← jsTrimList_map jsWhitespace_lowerChar, List.map_append, ucwords_data, capList_map_lower,
    h1, show ([' '].map lowerChar) = [' '] from rfl,
    jsTrimList_append_ws (by decide), h2]

theorem stepLine_empty (st : PState) : stepLine st "" = .ok st := by
  obtain ⟨arena, feed, prev⟩ := st
  cases prev <;> rfl

theorem hData_getLast (n ty : String) : (hData n ty).getLast? = some ')' := by
  rw [show hData n ty = ('#' :: ' ' :: ((ucwords n).data ++ [' ', '('] ++ ty.data)) ++ [')']
      from by simp [hData, List.append_assoc], List.getLast?_concat]

theorem hData_trim (n ty : String) : jsTrimList (hData n ty) = hData n ty := by
  apply jsTrimList_eq_self
  · intro c hc
    rw [show (hData n ty).head? = some '#' from rfl] at hc
    injection hc with hc
    subst hc
    rfl
  · intro c hc
    rw [hData_getLast] at hc
    injection hc with hc
    subst hc
    rfl

theorem stepLine_hData (st : PState) (n ty : String)
    (hn : n ≠ "") (hnt : jsTrim n = n) (hnl : jsToLower n = n) (hlp : '(' ∉ n.data)
    (hty : ty ≠ "") (htt : jsTrim ty = ty) (htl : jsToLower ty = ty) (hrp : ')' ∉ ty.data) :
    stepLine st ⟨hData n ty⟩ = .ok ⟨st.arena ++ [⟨n, ty, 1, [], st.previous, []⟩],
      st.feed ++ [st.arena.length], some st.arena.length⟩ := by
  have hlp' : '(' ∉ (ucwords n).data := by
    rw [ucwords_data]
    exact lparen_not_mem_capList _ _ hlp
  have hph := parseHeading_hData n ty hn hty hlp' hrp
  have htrim : jsTrimList (String.mk (hData n ty)).data = hData n ty := hData_trim n ty
  simp only [stepLine, htrim, hph]
  rw [name_norm n hnt hnl, htt, htl]
  rfl

theorem nl_not_mem_hData {n ty : String} (h1 : '\n' ∉ n.data) (h2 : '\n' ∉ ty.data) :
    '\n' ∉ hData n ty := by
  intro hm
  rw [hData] at hm
  rcases List.mem_cons.mp hm with hm | hm
  · exact absurd hm (by decide)
  rcases List.mem_cons.mp hm with hm | hm
  · exact absurd hm (by decide)
  rcases List.mem_append.mp hm with hm | hm
  · rcases List.mem_append.mp hm with hm | hm
    · rcases List.mem_append.mp hm with hm | hm
      · exact nl_not_mem_capList true n.data h1 (by rw [← ucwords_data]; exact hm)
      · exact absurd hm (by decide)
    · exact h2 hm
  · exact absurd hm (by decide)

theorem splitNl_nl_cons (r : List Char) : splitNl ('\n' :: r) = [] :: splitNl r := rfl

theorem mdFlatten_flat (n ty : String) :
    mdFlatten (.node n ty 1 [] []) = ⟨hData n ty⟩ := by
  show jsTrim (String.intercalate "\n\n"
    ([(⟨List.replicate 1 '#'⟩ : String) ++ " " ++ ucwords n ++ " (" ++ ty ++ ")",
      String.intercalate "\n\n" (mdFlattenList [])])) = ⟨hData n ty⟩
  rw [show mdFlattenList [] = [] from rfl, string_intercalate_pair]
  show (⟨jsTrimList (((⟨List.replicate 1 '#'⟩ : String) ++ " " ++ ucwords n ++ " (" ++ ty ++ ")"
    ++ "\n\n" ++ String.intercalate "\n\n" []).data)⟩ : String) = _
  have hd : ((⟨List.replicate 1 '#'⟩ : String) ++ " " ++ ucwords n ++ " (" ++ ty ++ ")"
      ++ "\n\n" ++ String.intercalate "\n\n" []).data = (hData n ty ++ ['\n']) ++ ['\n'] := by
    simp [string_data_append, hData, List.append_assoc]
    rfl
  rw [hd, jsTrimList_append_ws (by decide), jsTrimList_append_ws (by decide), hData_trim]

theorem splitNl_intercalate_roots : ∀ (ts : List Tree) (t : Tree),
    '\n' ∉ hData t.name t.type → (∀ x ∈ ts, '\n' ∉ hData x.name x.type) →
    splitNl ((String.intercalate "\n\n"
      ((t :: ts).map fun x => (⟨hData x.name x.type⟩ : String))).data ++ ['\n']) =
      linesData (t :: ts) := by
  intro ts
  induction ts with
  | nil =>
    intro t hnl _
    show splitNl (hData t.name t.type ++ '\n' :: []) = _
    rw [splitNl_append_nl [] hnl]
    rfl
  | cons t₂ ts ih =>
    intro t hnl hall
    rw [show ((t :: t₂ :: ts).map fun x => (⟨hData x.name x.type⟩ : String)) =
        (⟨hData t.name t.type⟩ : String) :: (⟨hData t₂.name t₂.type⟩ : String) ::
        (ts.map fun x => (⟨hData x.name x.type⟩ : String)) from rfl,
      string_intercalate_cons_cons,
      show ((⟨hData t₂.name t₂.type⟩ : String) :: (ts.map fun x =>
        (⟨hData x.name x.type⟩ : String))) = ((t₂ :: ts).map fun x =>
        (⟨hData x.name x.type⟩ : String)) from rfl]
    have hd : (((⟨hData t.name t.type⟩ : String) ++ "\n\n" ++
        String.intercalate "\n\n" ((t₂ :: ts).map fun x => (⟨hData x.name x.type⟩ : String))).data
        ++ ['\n']) = hData t.name t.type ++ '\n' :: ('\n' ::
          ((String.intercalate "\n\n" ((t₂ :: ts).map fun x =>
            (⟨hData x.name x.type⟩ : String))).data ++ ['\n'])) := by
      simp [string_data_append, List.append_assoc]
    rw [hd, splitNl_append_nl _ hnl, splitNl_nl_cons,
      ih t₂ (hall t₂ (List.mem_cons_self _ _)) (fun x hx => hall x (List.mem_cons_of_mem _ hx))]
    rfl

theorem intercalate_roots_getLast : ∀ (ts : List Tree) (t : Tree),
    (String.intercalate "\n\n"
      ((t :: ts).map fun x => (⟨hData x.name x.type⟩ : String))).data.getLast? =
      some ')' := by
  intro ts
  induction ts with
  | nil => intro t; exact hData_getLast t.name t.type
  | cons t₂ ts ih =>
    intro t
    rw [show ((t :: t₂ :: ts).map fun x => (⟨hData x.name x.type⟩ : String)) =
        (⟨hData t.name t.type⟩ : String) :: (⟨hData t₂.name t₂.type⟩ : String) ::
        (ts.map fun x => (⟨hData x.name x.type⟩ : String)) from rfl,
      string_intercalate_cons_cons,
      show ((⟨hData t₂.name t₂.type⟩ : String) :: (ts.map fun x =>
        (⟨hData x.name x.type⟩ : String))) = ((t₂ :: ts).map fun x =>
        (⟨hData x.name x.type⟩ : String)) from rfl]
    have hsplit : ((⟨hData t.name t.type⟩ : String) ++ "\n\n" ++
        String.intercalate "\n\n" ((t₂ :: ts).map fun x => (⟨hData x.name x.type⟩ : String))).data =
        (hData t.name t.type ++ ['\n', '\n']) ++
        (String.intercalate "\n\n" ((t₂ :: ts).map fun x =>
          (⟨hData x.name x.type⟩ : String))).data := by
      simp [string_data_append, List.append_assoc]
    rw [hsplit, List.getLast?_append, ih t₂]
    rfl
  
theorem intercalate_roots_head : ∀ (ts : List Tree) (t : Tree),
    (String.intercalate "\n\n"
      ((t :: ts).map fun x => (⟨hData x.name x.type⟩ : String))).data.head? =
      some '#' := by
  intro ts
  cases ts with
  | nil => intro t; rfl
  | cons t₂ ts =>
    intro t
    rw [show ((t :: t₂ :: ts).map fun x => (⟨hData x.name x.type⟩ : String)) =
        (⟨hData t.name t.type⟩ : String) :: (⟨hData t₂.name t₂.type⟩ : String) ::
        (ts.map fun x => (⟨hData x.name x.type⟩ : String)) from rfl,
      string_intercalate_cons_cons]
    rfl

theorem FlatRoot_shape {t : Tree} (h : FlatRoot t) :
    t = .node t.name t.type 1 [] [] := by
  obtain ⟨n, ty, d, ps, cs⟩ := t
  obtain ⟨h1, h2, h3, _⟩ := h
  have h1' : d = 1 := h1
  have h2' : ps = [] := h2
  have h3' : cs = [] := by
    have : cs.isEmpty = true := h3
    cases cs with
    | nil => rfl
    | cons a l => exact absurd this (by simp [List.isEmpty])
  subst h1'; subst h2'; subst h3'
  rfl

theorem mdFlattenList_roots : ∀ (data : List Tree), (∀ t ∈ data, FlatRoot t) →
    mdFlattenList data = data.map fun x => (⟨hData x.name x.type⟩ : String) := by
  intro data
  induction data with
  | nil => intro _; rfl
  | cons t ts ih =>
    intro h
    show mdFlatten t :: mdFlattenList ts = _
    rw [ih (fun x hx => h x (List.mem_cons_of_mem _ hx)), List.map_cons]
    have hs := FlatRoot_shape (h t (List.mem_cons_self _ _))
    conv_lhs => rw [hs]
    rw [mdFlatten_flat]

theorem linesData_map_mk : ∀ (data : List Tree), (∀ t ∈ data, FlatRoot t) →
    (linesData data).map (fun l => (⟨l⟩ : String)) = rootLines data := by
  intro data
  induction data with
  | nil => intro _; rfl
  | cons t ts ih =>
    intro h
    show (⟨hData t.name t.type⟩ : String) :: "" :: (linesData ts).map _ =
      mdFlatten t :: "" :: rootLines ts
    rw [ih (fun x hx => h x (List.mem_cons_of_mem _ hx))]
    have hs := FlatRoot_shape (h t (List.mem_cons_self _ _))
    conv_rhs => rw [hs]
    rw [mdFlatten_flat]

theorem mdLines_toMD (t : Tree) (ts : List Tree) (h : ∀ x ∈ t :: ts, FlatRoot x) :
    mdLines (toMD (t :: ts)) = rootLines (t :: ts) := by
  have hnl : ∀ x ∈ t :: ts, '\n' ∉ hData x.name x.type := by
    intro x hx
    obtain ⟨_, _, _, _, _, _, _, hn, _, _, _, _, ht⟩ := h x hx
    exact nl_not_mem_hData hn ht
  have hml := mdFlattenList_roots (t :: ts) h
  show (splitNl (toMD (t :: ts)).data).map (fun l => (⟨l⟩ : String)) = _
  have htd : (toMD (t :: ts)).data =
      (String.intercalate "\n\n" ((t :: ts).map fun x => (⟨hData x.name x.type⟩ : String))).data
        ++ ['\n'] := by
    show (jsTrim (String.intercalate "\n\n" (mdFlattenList (t :: ts))) ++ "\n").data = _
    rw [hml]
    rw [string_data_append]
    have htrim : (jsTrim (String.intercalate "\n\n"
        ((t :: ts).map fun x => (⟨hData x.name x.type⟩ : String)))).data =
        (String.intercalate "\n\n"
          ((t :: ts).map fun x => (⟨hData x.name x.type⟩ : String))).data := by
      show jsTrimList _ = _
      apply jsTrimList_eq_self
      · intro c hc
        rw [intercalate_roots_head ts t] at hc
        injection hc with hc
        subst hc
        rfl
      · intro c hc
        rw [intercalate_roots_getLast ts t] at hc
        injection hc with hc
        subst hc
        rfl
    rw [htrim]
  rw [htd, splitNl_intercalate_roots ts t (hnl t (List.mem_cons_self _ _))
    (fun x hx => hnl x (List.mem_cons_of_mem _ hx))]
  exact linesData_map_mk (t :: ts) h

theorem rootRecs_length : ∀ (data : List Tree) (prev : Option Nat) (base : Nat),
    (rootRecs data prev base).length = data.length := by
  intro data
  induction data with
  | nil => intro _ _; rfl
  | cons t ts ih =>
    intro prev base
    show (rootRecs ts (some base) (base + 1)).length + 1 = ts.length + 1
    rw [ih]

theorem rootRecs_get : ∀ (data : List Tree) (prev : Option Nat) (base m : Nat) (t : Tree),
    data.get? m = some t →
    ∃ pr, (rootRecs data prev base).get? m = some ⟨t.name, t.type, 1, [], pr, []⟩ := by
  intro data
  induction data with
  | nil => intro _ _ m t h; simp at h
  | cons x ts ih =>
    intro prev base m t h
    cases m with
    | zero =>
      have h' : some x = some t := h
      injection h' with h'
      subst h'
      exact ⟨prev, rfl⟩
    | succ m' =>
      have h' : ts.get? m' = some t := h
      exact ih (some base) (base + 1) m' t h'

theorem fold_roots : ∀ (data : List Tree) (st : PState), (∀ t ∈ data, FlatRoot t) →
    ∃ pv, List.foldlM stepLine st (rootLines data) =
      .ok ⟨st.arena ++ rootRecs data st.previous st.arena.length,
           st.feed ++ List.range' st.arena.length data.length, pv⟩ := by
  intro data
  induction data with
  | nil =>
    intro st _
    refine ⟨st.previous, ?_⟩
    show Except.ok st = Except.ok (⟨st.arena ++ [], st.feed ++ [], st.previous⟩ : PState)
    rw [List.append_nil, List.append_nil]
  | cons t ts ih =>
    intro st h
    obtain ⟨hd1, hps, hcs, hn, hnt, hnl, hlp, hnn, hty, htt, htl, hrp, htn⟩ :=
      h t (List.mem_cons_self _ _)
    have hstep := stepLine_hData st t.name t.type hn hnt hnl hlp hty htt htl hrp
    obtain ⟨pv, hfold⟩ := ih ⟨st.arena ++ [⟨t.name, t.type, 1, [], st.previous, []⟩],
      st.feed ++ [st.arena.length], some st.arena.length⟩
      (fun x hx => h x (List.mem_cons_of_mem _ hx))
    refine ⟨pv, ?_⟩
    show (stepLine st (mdFlatten t) >>= fun s =>
      List.foldlM stepLine s ("" :: rootLines ts)) = _
    rw [show mdFlatten t = (⟨hData t.name t.type⟩ : String) from by
        conv_lhs => rw [FlatRoot_shape (h t (List.mem_cons_self _ _))]
        rw [mdFlatten_flat],
      hstep]
    show (stepLine ⟨st.arena ++ [⟨t.name, t.type, 1, [], st.previous, []⟩],
        st.feed ++ [st.arena.length], some st.arena.length⟩ "" >>= fun s =>
      List.foldlM stepLine s (rootLines ts)) = _
    rw [stepLine_empty]
    show List.foldlM stepLine ⟨st.arena ++ [⟨t.name, t.type, 1, [], st.previous, []⟩],
      st.feed ++ [st.arena.length], some st.arena.length⟩ (rootLines ts) = _
    rw [hfold]
    show Except.ok (⟨(st.arena ++ [⟨t.name, t.type, 1, [], st.previous, []⟩]) ++
        rootRecs ts (some st.arena.length) (st.arena ++ [_]).length,
      (st.feed ++ [st.arena.length]) ++
        List.range' (st.arena ++ [_]).length ts.length, pv⟩ : PState) = _
    have hlen : (st.arena ++ [(⟨t.name, t.type, 1, [], st.previous, []⟩ : PRec)]).length =
        st.arena.length + 1 := by
      rw [List.length_append]
      rfl
    rw [hlen, List.append_assoc, List.append_assoc]
    show Except.ok (⟨st.arena ++ ([⟨t.name, t.type, 1, [], st.previous, []⟩] ++
        rootRecs ts (some st.arena.length) (st.arena.length + 1)),
      st.feed ++ ([st.arena.length] ++ List.range' (st.arena.length + 1) ts.length), pv⟩
        : PState) = _
    rw [List.singleton_append, List.singleton_append]
    show _ = Except.ok (⟨st.arena ++ rootRecs (t :: ts) st.previous st.arena.length,
      st.feed ++ List.range' st.arena.length (t :: ts).length, pv⟩ : PState)
    rw [show rootRecs (t :: ts) st.previous st.arena.length =
        (⟨t.name, t.type, 1, [], st.previous, []⟩ : PRec) ::
          rootRecs ts (some st.arena.length) (st.arena.length + 1) from rfl,
      show (t :: ts).length = ts.length + 1 from rfl,
      show List.range' st.arena.length (ts.length + 1) =
        st.arena.length :: List.range' (st.arena.length + 1) ts.length from rfl]

theorem range_map_toTree : ∀ (data : List Tree) (A : List PRec) (L base : Nat),
    (∀ m t, data.get? m = some t →
      ∃ pr, A.get? (base + m) = some ⟨t.name, t.type, 1, [], pr, []⟩) →
    (∀ t ∈ data, FlatRoot t) → 0 < L →
    (List.range' base data.length).map (toTree L A) = data := by
  intro data
  induction data with
  | nil => intro _ _ _ _ _ _; rfl
  | cons t ts ih =>
    intro A L base hget h hL
    show (List.range' base (ts.length + 1)).map (toTree L A) = _
    rw [show List.range' base (ts.length + 1) =
      base :: List.range' (base + 1) ts.length from rfl, List.map_cons]
    obtain ⟨pr, hpr⟩ := hget 0 t rfl
    rw [Nat.add_zero] at hpr
    have hhead : toTree L A base = t := by
      cases L with
      | zero => exact absurd hL (by decide)
      | succ l =>
        show (match A.get? base with
          | none => Tree.node "" "" 0 [] []
          | some r => Tree.node r.name r.type r.depth r.props (r.children.map (toTree l A))) = t
        rw [hpr]
        show Tree.node t.name t.type 1 [] [] = t
        exact (FlatRoot_shape (h t (List.mem_cons_self _ _))).symm
    rw [hhead, ih A L (base + 1)
      (fun m t' hm => by
        obtain ⟨pr', hpr'⟩ := hget (m + 1) t' hm
        refine ⟨pr', ?_⟩
        rw [show base + 1 + m = base + (m + 1) from by omega]
        exact hpr')
      (fun x hx => h x (List.mem_cons_of_mem _ hx)) hL]

/-! ## Claim theorems -/

/-- C3, counterexample: on the value list `["0.9", "0.9"]` the inferred
column type of `getType` is boolean-like INTEGER (both values pass the
numeric test and `parseInt` maps both to `0`), while the spec's decision
procedure — boolean-like only when every value is exactly the string `0`
or `1`, INTEGER only with no fractional component — yields REAL, so the
two procedures differ. -/
theorem C3_counterexample :
    getType (["0.9", "0.9"].map Val.str) = ⟨"INTEGER", "boolean"⟩ ∧
    specGetType ["0.9", "0.9"] = ⟨"REAL", "number"⟩ ∧
    getType (["0.9", "0.9"].map Val.str) ≠ specGetType ["0.9", "0.9"] := by
  decide

/-- C3, amended: for every value list, `getType` equals the spec's decision
procedure with the boolean-like test amended to "more than one value and
every value's integer-prefix parse is 0 or 1" and the integer test amended
to "every value's decimal parse equals its integer-prefix parse". -/
theorem C3_amended (values : List String) :
    getType (values.map Val.str) = specGetTypeAmended values := by
  have hmap : ∀ (p : Val → Bool) (q : String → Bool), (∀ s, p (Val.str s) = q s) →
      ∀ vs : List String, (vs.map Val.str).all p = vs.all q := by
    intro p q h vs
    induction vs with
    | nil => rfl
    | cons v vs ih => simp [List.all_cons, ih, h]
  unfold getType specGetTypeAmended
  rw [hmap isNumberVal isNumber (fun _ => rfl) values,
    hmap booleanVal is.boolean (fun _ => rfl) values,
    hmap integerVal is.integer (fun _ => rfl) values, List.length_map]
  by_cases hn : values.all isNumber
  · conv_rhs => rw [if_neg (show ¬¬(values.all isNumber = true) from fun hc => hc hn)]
    rw [if_pos hn]
  · conv_rhs => rw [if_pos (show ¬(values.all isNumber = true) from hn)]
    rw [if_neg hn]

/-- C5, counterexample: parsing the two-record `episodeDoc` (two depth-1
records with the same normalized name "episode 1") and synthesizing at
`unique_depth = 0` emits TWO insert rows for the episode table — one per
record instance — not the single merged row the claim asserts. -/
theorem C5_counterexample :
    ((fromMD episodeDoc).bind fun d => toSQL d 0).map
      (fun out => out.1.map fun t => (t.1, t.2.length)) = Except.ok [("episode", 2)] := by
  decide

/-- C5, amended: at `unique_depth = 0` the two records merge into one
logical entity emitted as two rows carrying the SAME generated identifier,
the later row's values being the union of both records' fields with the
later value winning on the conflicting `title`; at `unique_depth = 1` the
two rows carry two distinct generated identifiers (and no merged
properties). -/
theorem C5_amended :
    ((fromMD episodeDoc).bind fun d => toSQL d 0).map Prod.fst =
      Except.ok [("episode",
        [[.quoted (.uuidv 0), .quoted (.str "Pilot"), .num (.str "5")],
         [.quoted (.uuidv 0), .quoted (.str "Pilot Two"), .num (.str "5")]])] ∧
    ((fromMD episodeDoc).bind fun d => toSQL d 1).map Prod.fst =
      Except.ok [("episode",
        [[.quoted (.uuidv 0), .quoted (.str "Pilot"), .num (.str "5")],
         [.quoted (.uuidv 1), .quoted (.str "Pilot Two"), .null]])] ∧
    (Val.uuidv 0 : Val) ≠ .uuidv 1 := by
  refine ⟨by decide, by decide, by decide⟩

/-- C9: a document containing a heading line that lacks the parenthesized
type suffix makes `fromMD` fail with the parse error
`Unknown type for "<heading text>"`, naming the (first) offending
heading's text, and no record forest is produced. -/
theorem C9_missing_type_error (md : String) (l : String)
    (h : (mdLines md).find? badHeading = some l) :
    fromMD md = .error ("Unknown type for \"" ++ badHeadingName l ++ "\"") := by
  unfold fromMD fromMDLines
  rw [fromMDLines_first_bad (mdLines md) l h initState]
  rfl

/-- C9, witness: the single-line document `# Hello there` fails with the
parse error naming `Hello there`. -/
theorem C9_witness :
    fromMD "# Hello there" =
      .error ("Unknown type for \"" ++ badHeadingName "# Hello there" ++ "\"") :=
  C9_missing_type_error "# Hello there" "# Hello there" (by decide)

/-- C10: a property-shaped line (with or without the bullet) that is not a
heading and appears before any heading line is silently discarded: parsing
the document with the line is the same as parsing it without, so the line
reaches no record's properties and raises no error. -/
theorem C10_preheading_property_discarded (line : String) (rest : List String)
    (hnh : parseHeading (jsTrimList line.data) = none)
    (_hp : (parseProperty (jsTrimList line.data)).isSome = true) :
    fromMDLines (line :: rest) = fromMDLines rest := by
  unfold fromMDLines
  rw [List.foldlM_cons]
  have hstep : stepLine initState line = .ok initState := by
    simp only [stepLine, hnh]
    rfl
  rw [hstep]
  rfl

/-- C10, witness: the bulleted property line `-   X: 1` before the first
heading is discarded. -/
theorem C10_witness :
    fromMDLines ["-   X: 1", "# W (t)"] = fromMDLines ["# W (t)"] :=
  C10_preheading_property_discarded "-   X: 1" ["# W (t)"] (by decide) (by decide)

/-- Depth returned by the heading parser is the count of leading `#`
characters of the trimmed line. -/
theorem parseHeading_depth (l : List Char) (k : Nat) (nm : String) (tyOpt : Option String)
    (h : parseHeading l = some (k, nm, tyOpt)) : k = (l.takeWhile (· = '#')).length := by
  simp only [parseHeading] at h
  repeat' split at h
  all_goals
    first
      | (simp only [Option.some.injEq, Prod.mk.injEq] at h; exact h.1.symm)
      | simp at h

/-- C6: for a heading line parsed while `previous` is the record at index
`p`, the record's depth is the count of `#` characters on the line; depth
1 starts a new root (appended to the root feed, carrying no parent in the
output); otherwise the candidate parent is `previous.parent` at equal
depth, `previous.parent.parent` at strictly smaller depth whenever that
chain exists, and `previous` itself at strictly greater depth. -/
theorem C6_parent_resolution (st : PState) (line : String) (p : Nat) (pr : PRec)
    (k : Nat) (nm ty : String)
    (_hprev : st.previous = some p) (hget : st.arena.get? p = some pr)
    (hline : parseHeading (jsTrimList line.data) = some (k, nm, some ty)) :
    k = ((jsTrimList line.data).takeWhile (· = '#')).length ∧
    (k = 1 → (stepLine st line).map PState.feed = .ok (st.feed ++ [st.arena.length])) ∧
    (k ≠ 1 → k = pr.depth → resolveParent st.arena p k = pr.parent) ∧
    (k ≠ 1 → k < pr.depth →
      ∀ q qr r, pr.parent = some q → st.arena.get? q = some qr → qr.parent = some r →
        resolveParent st.arena p k = some r) ∧
    (k ≠ 1 → pr.depth < k → resolveParent st.arena p k = some p) := by
  refine ⟨parseHeading_depth _ _ _ _ hline, ?_, ?_, ?_, ?_⟩
  · intro h1
    simp only [stepLine, hline]
    rw [if_pos h1]
    rfl
  · intro _ hkd
    simp only [resolveParent, hget]
    rw [if_pos hkd]
  · intro _ hlt q qr r hq hqr hr
    simp only [resolveParent, hget]
    rw [if_neg (by omega), if_pos hlt, hq]
    dsimp only
    rw [hqr]
    exact hr
  · intro _ hgt
    simp only [resolveParent, hget]
    rw [if_neg (by omega), if_neg (by omega)]

/-- C6, witness: a three-record chain (depths 1, 2, 3) with `previous` the
depth-3 record, and the heading `## x (t)` of depth 2. -/
theorem C6_witness :
    (2 : Nat) = ((jsTrimList ("## x (t)" : String).data).takeWhile (· = '#')).length ∧
    ((2 : Nat) = 1 →
      (stepLine ⟨[⟨"r", "t", 1, [], none, [1]⟩, ⟨"q", "t", 2, [], some 0, [2]⟩,
        ⟨"pp", "t", 3, [], some 1, []⟩], [0], some 2⟩ "## x (t)").map PState.feed =
        .ok ([0] ++ [3])) ∧
    ((2 : Nat) ≠ 1 → (2 : Nat) = 3 →
      resolveParent [⟨"r", "t", 1, [], none, [1]⟩, ⟨"q", "t", 2, [], some 0, [2]⟩,
        ⟨"pp", "t", 3, [], some 1, []⟩] 2 2 = some 1) ∧
    ((2 : Nat) ≠ 1 → (2 : Nat) < 3 →
      ∀ q qr r, some 1 = some q →
        ([⟨"r", "t", 1, [], none, [1]⟩, ⟨"q", "t", 2, [], some 0, [2]⟩,
          ⟨"pp", "t", 3, [], some 1, []⟩] : List PRec).get? q = some qr → qr.parent = some r →
        resolveParent [⟨"r", "t", 1, [], none, [1]⟩, ⟨"q", "t", 2, [], some 0, [2]⟩,
          ⟨"pp", "t", 3, [], some 1, []⟩] 2 2 = some r) ∧
    ((2 : Nat) ≠ 1 → (3 : Nat) < 2 →
      resolveParent [⟨"r", "t", 1, [], none, [1]⟩, ⟨"q", "t", 2, [], some 0, [2]⟩,
        ⟨"pp", "t", 3, [], some 1, []⟩] 2 2 = some 2) :=
  C6_parent_resolution
    ⟨[⟨"r", "t", 1, [], none, [1]⟩, ⟨"q", "t", 2, [], some 0, [2]⟩,
      ⟨"pp", "t", 3, [], some 1, []⟩], [0], some 2⟩
    "## x (t)" 2 ⟨"pp", "t", 3, [], some 1, []⟩ 2 "x " "t" rfl (by decide) (by decide)

/-- C8: when `toSQL` (or `toTS`) returns, every flattened record — the
flattened sequence enumerates exactly the records reachable from the
instance's data, and the returned list carries their final states — has
its parent back-reference removed and its properties contain neither the
generated `uuid` identifier nor the internal `_parent` parent-link
property, so the returned structure carries no parent links at all. -/
theorem C8_output_cleaned (data : List Tree) (ud : Nat)
    (out : List (String × List (List SqlVal)) × List FlatRec) (outTS : List FlatRec)
    (h1 : toSQL data ud = .ok out) (h2 : toTS data = .ok outTS) :
    (∀ r ∈ out.2, r.parent = none ∧ getKey r.props "uuid" = none ∧
      getKey r.props "_parent" = none) ∧
    (∀ r ∈ outTS, r.parent = none ∧ getKey r.props "uuid" = none ∧
      getKey r.props "_parent" = none) := by
  constructor
  · unfold toSQL at h1
    cases hbm : buildMaps data ud with
    | error e => rw [hbm] at h1; exact absurd h1 (by simp [Bind.bind, Except.bind])
    | ok o =>
      rw [hbm] at h1
      replace h1 : (tableRows o >>= fun rows => Except.ok (rows, cleanFlat o.flat)) =
        .ok out := h1
      cases hrows : tableRows o with
      | error e =>
        rw [hrows] at h1
        exact absurd h1 (by simp [Bind.bind, Except.bind])
      | ok rows =>
        rw [hrows] at h1
        replace h1 : (Except.ok (rows, cleanFlat o.flat) :
          Except String (List (String × List (List SqlVal)) × List FlatRec)) = .ok out := h1
        injection h1 with h1
        subst h1
        exact cleanFlat_clean o.flat
  · unfold toTS at h2
    cases hbm : buildMaps data 0 with
    | error e => rw [hbm] at h2; exact absurd h2 (by simp [Bind.bind, Except.bind])
    | ok o =>
      rw [hbm] at h2
      replace h2 : (Except.ok (cleanFlat o.flat) : Except String (List FlatRec)) =
        .ok outTS := h2
      injection h2 with h2
      subst h2
      exact cleanFlat_clean o.flat

/-- C4, counterexample: in `mixedMarkerDoc` the property `p` of type `t`
is observed with values `{a}` (a marker) and `plain` (not a marker), yet
the synthesizer emits the foreign-key column `t_p_reft_uuid` (and its
constraint) in place of a plain column — the foreign-key path is taken
when ANY observed value is a marker, not when all are. -/
theorem C4_counterexample :
    ((fromMD mixedMarkerDoc).bind fun d => buildMaps d 0).map
      (fun o => o.tables.map fun t => (t.1, t.2.columns.map Column.field, t.2.raw)) =
      Except.ok [("reft", ["reft_uuid"], []),
        ("t", ["t_p_reft_uuid", "t_uuid"], [("p", [.str "{a}", .str "plain"])])] ∧
    marker.test (Val.str "plain") = false := by
  exact ⟨by decide, by decide⟩

/-- C4, amended: the synthesized columns and keys of a type are exactly
described by `specSynthesis`: the properties with AT LEAST ONE
reference-marker sample become foreign-key columns (resolved through the
identity map from the first marker sample, an unresolved identity being a
fatal reference error), and exactly the others become plain columns with
their inferred types. -/
theorem C4_amended (flat : List FlatRec) (n2r : List (String × List Nat)) (ty : String)
    (raw : List (String × List Val)) (cols : List Column) (keys : List String) :
    buildColumns flat n2r ty raw cols keys = specSynthesis flat n2r ty raw cols keys := by
  induction raw generalizing cols keys with
  | nil =>
    show Except.ok (cols, keys) =
      (Except.ok ((([] : List (Column × String)).map Prod.fst).reverse ++ cols ++ [],
        keys ++ ([] : List (Column × String)).map Prod.snd) : Except String _)
    simp
  | cons pv rest ih =>
    obtain ⟨p, vs⟩ := pv
    by_cases hm : marker.testArr vs
    · show (buildColumn flat n2r ty p vs cols keys >>= fun ck =>
        buildColumns flat n2r ty rest ck.1 ck.2) = _
      cases halist : alistGet n2r (valStr (marker.stripArr vs)) with
      | none =>
        have hbc : buildColumn flat n2r ty p vs cols keys =
            .error ("Unable to find reference \"" ++
              ucwords (valStr (marker.stripArr vs)) ++ "\"") := by
          simp only [buildColumn, hm, if_pos, halist]
        have hfk : fkColumnSpec flat n2r ty p vs =
            .error ("Unable to find reference \"" ++
              ucwords (valStr (marker.stripArr vs)) ++ "\"") := by
          simp only [fkColumnSpec, halist]
        rw [hbc]
        show Except.error _ = specSynthesis flat n2r ty ((p, vs) :: rest) cols keys
        unfold specSynthesis
        rw [List.filter_cons_of_pos (by simpa using hm), List.mapM_cons, hfk]
        rfl
      | some l =>
        cases l with
        | nil =>
          have hbc : buildColumn flat n2r ty p vs cols keys =
              .error ("Unable to find reference \"" ++
                ucwords (valStr (marker.stripArr vs)) ++ "\"") := by
            simp only [buildColumn, hm, if_pos, halist]
          have hfk : fkColumnSpec flat n2r ty p vs =
              .error ("Unable to find reference \"" ++
                ucwords (valStr (marker.stripArr vs)) ++ "\"") := by
            simp only [fkColumnSpec, halist]
          rw [hbc]
          show Except.error _ = specSynthesis flat n2r ty ((p, vs) :: rest) cols keys
          unfold specSynthesis
          rw [List.filter_cons_of_pos (by simpa using hm), List.mapM_cons, hfk]
          rfl
        | cons j js =>
          have hbc : buildColumn flat n2r ty p vs cols keys =
              .ok ((fkColumnPair flat n2r ty p vs j).1 :: cols,
                keys ++ [(fkColumnPair flat n2r ty p vs j).2]) := by
            simp only [buildColumn, hm, if_pos, halist, fkColumnPair]
          have hfk : fkColumnSpec flat n2r ty p vs = .ok (fkColumnPair flat n2r ty p vs j) := by
            simp only [fkColumnSpec, halist, fkColumnPair]
          rw [hbc]
          show buildColumns flat n2r ty rest
            ((fkColumnPair flat n2r ty p vs j).1 :: cols)
            (keys ++ [(fkColumnPair flat n2r ty p vs j).2]) = _
          rw [ih]
          unfold specSynthesis
          rw [List.filter_cons_of_pos (by simpa using hm), List.mapM_cons, hfk,
            List.filter_cons_of_neg (by simpa using hm)]
          cases hrest : (rest.filter fun pv => marker.testArr pv.2).mapM
              (fun pv => fkColumnSpec flat n2r ty pv.1 pv.2) with
          | error e => rfl
          | ok fks =>
            show (Except.ok _ : Except String (List Column × List String)) = Except.ok _
            simp [List.reverse_cons, List.append_assoc]
    · show (buildColumn flat n2r ty p vs cols keys >>= fun ck =>
        buildColumns flat n2r ty rest ck.1 ck.2) = _
      have hbc : buildColumn flat n2r ty p vs cols keys =
          .ok (cols ++ [plainColumnSpec ty p vs], keys) := by
        simp only [buildColumn, hm, if_neg, plainColumnSpec]
        rfl
      rw [hbc]
      show buildColumns flat n2r ty rest (cols ++ [plainColumnSpec ty p vs]) keys = _
      rw [ih]
      unfold specSynthesis
      rw [List.filter_cons_of_neg (by simpa using hm),
        List.filter_cons_of_pos (by simpa using hm)]
      cases hrest : (rest.filter fun pv => marker.testArr pv.2).mapM
          (fun pv => fkColumnSpec flat n2r ty pv.1 pv.2) with
      | error e => rfl
      | ok fks =>
        show (Except.ok _ : Except String (List Column × List String)) = Except.ok _
        simp [List.reverse_cons, List.append_assoc]

/-- C8, witness: a parent/child forest at `unique_depth = 0`, after both
`toSQL` and `toTS`. -/
theorem C8_witness :
    (∀ r ∈ (okOr (toSQL houseData 0) ([], [])).2, r.parent = none ∧
      getKey r.props "uuid" = none ∧ getKey r.props "_parent" = none) ∧
    (∀ r ∈ okOr (toTS houseData) [], r.parent = none ∧
      getKey r.props "uuid" = none ∧ getKey r.props "_parent" = none) :=
  C8_output_cleaned houseData 0 (okOr (toSQL houseData 0) ([], []))
    (okOr (toTS houseData) []) (by decide) (by decide)


/-- C1, counterexample: the two equal-name depth-1 records of
`ownUuidFlat` do merge at `unique_depth = 0` (one shared identity key
`"a"`, positions `[0, 1]`), but because each carries an own `uuid`
property that `Object.assign` lets win over the bag's generated
identifier, the resolved records end up with the identifiers `"x"` and
`"y"`: merged records do NOT share a generated identifier, refuting the
claim's "always merges (shared generated identifier)". -/
theorem C1_counterexample :
    keyPositions 0 ownUuidFlat 0 "a" = [0, 1] ∧
    ownUuidFlat.map (·.depth) = [1, 1] ∧
    ownUuidFlat.map (·.name) = ["a", "a"] ∧
    (resolveFlat ownUuidFlat 0).map (fun r => getKey r.props "uuid") =
      [some (.str "x"), some (.str "y")] ∧
    some (Val.str "x") ≠ some (Val.str "y") := by
  decide

/-- C1, amended: for a flattened sequence in which NO record carries an
own `uuid` property, at `unique_depth = d`: two records (at positions
`i < j`) whose depths are both `≤ d` get distinct identity keys and their
resolved states carry distinct generated identifiers (never merged); two
records whose depths are both `> d` with equal normalized names get the
same identity key and their resolved states carry the SAME generated
identifier, the earlier record's property keys all being present in the
later record's merged bag. -/
theorem C1_amended (rs : List FlatRec) (d : Nat)
    (hclean : ∀ r ∈ rs, getKey r.props "uuid" = none)
    (i j : Nat) (ri rj : FlatRec) (hij : i < j)
    (hi : rs.get? i = some ri) (hj : rs.get? j = some rj) :
    (ri.depth ≤ d → rj.depth ≤ d →
      mkKey ri.name ri.depth i d ≠ mkKey rj.name rj.depth j d ∧
      ∀ ri' rj', (resolveFlat rs d).get? i = some ri' →
        (resolveFlat rs d).get? j = some rj' →
        (∃ c, getKey ri'.props "uuid" = some (.uuidv c)) ∧
        getKey ri'.props "uuid" ≠ getKey rj'.props "uuid") ∧
    (d < ri.depth → d < rj.depth → ri.name = rj.name →
      mkKey ri.name ri.depth i d = mkKey rj.name rj.depth j d ∧
      ∀ ri' rj', (resolveFlat rs d).get? i = some ri' →
        (resolveFlat rs d).get? j = some rj' →
        (∃ c, getKey ri'.props "uuid" = some (.uuidv c) ∧
          getKey rj'.props "uuid" = some (.uuidv c)) ∧
        ∀ kk v, getKey ri'.props kk = some v →
          ∃ v', getKey rj'.props kk = some v') := by
  have hBag0 : BagInv (⟨[], [], [], 0⟩ : ResolveState) := by
    constructor
    · intro k b h
      exact absurd h (by simp [alistGet])
    · intro k₁ k₂ b₁ b₂ _ h₁ _
      exact absurd h₁ (by simp [alistGet])
  have hBag := BagInv_resolveAll d rs 0 ⟨[], [], [], 0⟩ hclean hBag0
  obtain ⟨ri₀, bi, h1i, h2i, h3i, h4i, h5i, h6i⟩ :=
    resolveAll_get_uuid d rs 0 ⟨[], [], [], 0⟩ hclean i ri hi
  obtain ⟨rj₀, bj, h1j, h2j, h3j, h4j, h5j, h6j⟩ :=
    resolveAll_get_uuid d rs 0 ⟨[], [], [], 0⟩ hclean j rj hj
  rw [Nat.zero_add] at h5i h5j
  constructor
  · intro hdi hdj
    have hkne : mkKey ri.name ri.depth i d ≠ mkKey rj.name rj.depth j d := by
      rw [show mkKey ri.name ri.depth i d = ri.name ++ "_" ++ decRepr i from by
          simp [mkKey, hdi],
        show mkKey rj.name rj.depth j d = rj.name ++ "_" ++ decRepr j from by
          simp [mkKey, hdj]]
      exact mkKey_low_ne ri.name rj.name i j (Nat.ne_of_lt hij)
    refine ⟨hkne, ?_⟩
    intro ri' rj' hri' hrj'
    have hei : ri' = ri₀ := by
      rw [show (resolveFlat rs d).get? i = (resolveAll d rs 0 ⟨[], [], [], 0⟩).1.get? i
          from rfl, h1i] at hri'
      injection hri' with h
      exact h.symm
    have hej : rj' = rj₀ := by
      rw [show (resolveFlat rs d).get? j = (resolveAll d rs 0 ⟨[], [], [], 0⟩).1.get? j
          from rfl, h1j] at hrj'
      injection hrj' with h
      exact h.symm
    subst hei
    subst hej
    obtain ⟨ci, _, hciu⟩ := hBag.1 _ bi h5i
    refine ⟨⟨ci, by rw [h6i, hciu]⟩, ?_⟩
    rw [h6i, h6j]
    exact hBag.2 _ _ bi bj hkne h5i h5j
  · intro hdi hdj hname
    have hkeq : mkKey ri.name ri.depth i d = mkKey rj.name rj.depth j d := by
      rw [show mkKey ri.name ri.depth i d = ri.name from by
          simp [mkKey]
          omega,
        show mkKey rj.name rj.depth j d = rj.name from by
          simp [mkKey]
          omega,
        hname]
    refine ⟨hkeq, ?_⟩
    intro ri' rj' hri' hrj'
    have hei : ri' = ri₀ := by
      rw [show (resolveFlat rs d).get? i = (resolveAll d rs 0 ⟨[], [], [], 0⟩).1.get? i
          from rfl, h1i] at hri'
      injection hri' with h
      exact h.symm
    have hej : rj' = rj₀ := by
      rw [show (resolveFlat rs d).get? j = (resolveAll d rs 0 ⟨[], [], [], 0⟩).1.get? j
          from rfl, h1j] at hrj'
      injection hrj' with h
      exact h.symm
    have hbij : bi = bj := by
      rw [hkeq] at h5i
      rw [h5i] at h5j
      injection h5j
    obtain ⟨c, _, hcu⟩ := hBag.1 _ bj h5j
    constructor
    · refine ⟨c, ?_, ?_⟩
      · rw [hei, h6i, hbij, hcu]
      · rw [hej, h6j, hcu]
    · intro kk v hv
      obtain ⟨rj₀', v', hj', hv'⟩ :=
        resolveAll_props_subset d rs 0 ⟨[], [], [], 0⟩ i j ri rj hij hi hj
          (by rw [Nat.zero_add, Nat.zero_add]; exact hkeq) ri' hri' kk v hv
      have hejj : rj₀' = rj₀ := by
        rw [h1j] at hj'
        injection hj' with h
        exact h.symm
      refine ⟨v', ?_⟩
      rw [hej, ← hejj]
      exact hv'

/-- C1, witness: the amended identity-resolution theorem applied to the
concrete clean pair `C1rs` (two equal-name depth-2 records) at
`unique_depth = 1`. -/
theorem C1_witness :
    (∀ r ∈ C1rs, getKey r.props "uuid" = none) ∧ 0 < 1 ∧
    C1rs.get? 0 = some C1r ∧ C1rs.get? 1 = some C1r ∧
    ((C1r.depth ≤ 1 → C1r.depth ≤ 1 →
      mkKey C1r.name C1r.depth 0 1 ≠ mkKey C1r.name C1r.depth 1 1 ∧
      ∀ ri' rj', (resolveFlat C1rs 1).get? 0 = some ri' →
        (resolveFlat C1rs 1).get? 1 = some rj' →
        (∃ c, getKey ri'.props "uuid" = some (.uuidv c)) ∧
        getKey ri'.props "uuid" ≠ getKey rj'.props "uuid") ∧
     (1 < C1r.depth → 1 < C1r.depth → C1r.name = C1r.name →
      mkKey C1r.name C1r.depth 0 1 = mkKey C1r.name C1r.depth 1 1 ∧
      ∀ ri' rj', (resolveFlat C1rs 1).get? 0 = some ri' →
        (resolveFlat C1rs 1).get? 1 = some rj' →
        (∃ c, getKey ri'.props "uuid" = some (.uuidv c) ∧
          getKey rj'.props "uuid" = some (.uuidv c)) ∧
        ∀ kk v, getKey ri'.props kk = some v →
          ∃ v', getKey rj'.props kk = some v')) :=
  ⟨by decide, by decide, rfl, rfl,
    C1_amended C1rs 1 (by decide) 0 1 C1r C1r (by decide) rfl rfl⟩

/-- C2, counterexample: in `ownUuidRefDoc` the record of identity key
`x` carries the own property `uuid: fake`, which `Object.assign` lets win
over the bag's generated identifier; the reference marker on the second
record then resolves to the string `"fake"`, which is not a generated
identifier, refuting the claim's "resolves to the generated unique
identifier of the first record whose identity key is x". -/
theorem C2_counterexample :
    ((fromMD ownUuidRefDoc).bind fun d => toSQL d 0).map Prod.fst =
      Except.ok [("t", [[.quoted (.str "fake"), .quoted (.str "fake")]]),
        ("u", [[.quoted (.str "fake"), .quoted (.uuidv 1)]])] ∧
    isGenerated (.str "fake") = false := by
  refine ⟨by decide, by decide⟩

/-- C2, amended: for a flattened sequence in which no record carries an
own `uuid` property, a property value that is a reference marker for the
identity `x` is emitted by `toSQL`'s value loop as the quoted GENERATED
identifier of the first record whose identity key is `x` (that record's
own resolved identifier); when no record has identity key `x`, emission
fails with exactly the reference error
`Unable to find reference "<ucwords x>"` — the title-cased form of the
missing identity. -/
theorem C2_amended (rs : List FlatRec) (ud : Nat) (x : String)
    (hclean : ∀ r ∈ rs, getKey r.props "uuid" = none)
    (rec : FlatRec) (c : Column) (v : Val)
    (hv : getKey rec.props c.property = some v) (htr : truthy v = true)
    (hm : marker.test v = true) (hs : valStr (marker.strip v) = x) :
    (∀ j ps, keyPositions ud rs 0 x = j :: ps →
      ∃ r r' cnt, rs.get? j = some r ∧ mkKey r.name r.depth j ud = x ∧
        (resolveFlat rs ud).get? j = some r' ∧
        getKey r'.props "uuid" = some (.uuidv cnt) ∧
        emitValue (resolveFlat rs ud) (resolveState rs ud).n2r rec c =
          .ok (.quoted (.uuidv cnt))) ∧
    (keyPositions ud rs 0 x = [] →
      emitValue (resolveFlat rs ud) (resolveState rs ud).n2r rec c =
        .error ("Unable to find reference \"" ++ ucwords x ++ "\"")) := by
  have hn2r := resolveState_n2r rs ud x
  constructor
  · intro j ps hkp
    obtain ⟨r, hle, hget, hkey⟩ := keyPositions_head ud rs 0 x j ps hkp
    rw [Nat.sub_zero] at hget
    obtain ⟨r', b, h1, h2, h3, h4, h5, h6⟩ :=
      resolveAll_get_uuid ud rs 0 ⟨[], [], [], 0⟩ hclean j r hget
    rw [Nat.zero_add] at h5
    have hBag := BagInv_resolveAll ud rs 0 ⟨[], [], [], 0⟩ hclean BagInv_init
    obtain ⟨cnt, _, hcu⟩ := hBag.1 _ b h5
    have huuid : getKey r'.props "uuid" = some (.uuidv cnt) := by rw [h6, hcu]
    have h1' : (resolveFlat rs ud).get? j = some r' := h1
    refine ⟨r, r', cnt, hget, hkey, h1', huuid, ?_⟩
    simp only [emitValue, hv, htr, hm, if_true, hs]
    rw [hn2r, hkp, if_neg (by simp)]
    simp only [h1', Option.map_some', Option.getD_some, huuid]
  · intro hkp
    have hnone : alistGet (resolveState rs ud).n2r x = none := by
      rw [hn2r, hkp, if_pos rfl]
    simp only [emitValue, hv, htr, hm, if_true, hs]
    rw [hnone]

/-- C2, witness: the amended reference-resolution theorem applied to the
concrete clean record list `C2rs` and the marker-valued record/column pair
`C2rec`/`C2col` at `unique_depth = 0`. -/
theorem C2_witness :
    (∀ r ∈ C2rs, getKey r.props "uuid" = none) ∧
    getKey C2rec.props C2col.property = some (.str "\x7bx\x7d") ∧
    truthy (.str "\x7bx\x7d") = true ∧
    marker.test (.str "\x7bx\x7d") = true ∧
    valStr (marker.strip (.str "\x7bx\x7d")) = "x" ∧
    ((∀ j ps, keyPositions 0 C2rs 0 "x" = j :: ps →
      ∃ r r' cnt, C2rs.get? j = some r ∧ mkKey r.name r.depth j 0 = "x" ∧
        (resolveFlat C2rs 0).get? j = some r' ∧
        getKey r'.props "uuid" = some (.uuidv cnt) ∧
        emitValue (resolveFlat C2rs 0) (resolveState C2rs 0).n2r C2rec C2col =
          .ok (.quoted (.uuidv cnt))) ∧
     (keyPositions 0 C2rs 0 "x" = [] →
      emitValue (resolveFlat C2rs 0) (resolveState C2rs 0).n2r C2rec C2col =
        .error ("Unable to find reference \"" ++ ucwords "x" ++ "\""))) :=
  ⟨by decide, by decide, by decide, by decide, by decide,
    C2_amended C2rs 0 "x" (by decide) C2rec C2col (.str "\x7bx\x7d")
      (by decide) (by decide) (by decide) (by decide)⟩

/-- C7, counterexample: `remergeDoc` parses to 5 records, but
serializing with `toMD` and re-parsing yields only 4: the re-parse merges
the serialized depth-3 `d` heading into the existing depth-2 `d` child of
the same candidate parent, so neither the node count nor every record's
(depth, type, name) triple survives the round trip. -/
theorem C7_counterexample :
    (fromMD remergeDoc).map recordCount = .ok 5 ∧
    (((fromMD remergeDoc).map toMD).bind fromMD).map recordCount = .ok 4 ∧
    (fromMD remergeDoc).map recordTriples =
      .ok [(1, "t", "a"), (2, "t", "d"), (2, "t", "b"), (4, "t", "c"), (3, "t", "d")] ∧
    (((fromMD remergeDoc).map toMD).bind fromMD).map recordTriples =
      .ok [(1, "t", "a"), (2, "t", "d"), (2, "t", "b"), (4, "t", "c")] ∧
    (5 : Nat) ≠ 4 := by
  refine ⟨by decide, by decide, by decide, by decide, by decide⟩

/-- C7, amended: the round trip is the identity — hence preserves node
count, depth, type and normalized name of every record — on forests of
normalized root records: depth-1, property-free, child-free records whose
names and types are trimmed, lowercase, parenthesis-safe and
newline-free.  (In general the round trip can merge records, as the
counterexample shows.) -/
theorem C7_amended (data : List Tree) (h : ∀ t ∈ data, FlatRoot t) :
    fromMD (toMD data) = .ok data := by
  cases data with
  | nil => rfl
  | cons t ts =>
    show (fromMDLines (mdLines (toMD (t :: ts))) >>= fun st => Except.ok (materialize st)) = _
    rw [mdLines_toMD t ts h]
    obtain ⟨pv, hfold⟩ := fold_roots (t :: ts) initState h
    show (List.foldlM stepLine initState (rootLines (t :: ts)) >>= fun st =>
      Except.ok (materialize st)) = _
    rw [hfold]
    show Except.ok (materialize ⟨[] ++ rootRecs (t :: ts) none 0,
      [] ++ List.range' 0 (t :: ts).length, pv⟩) = _
    rw [List.nil_append, List.nil_append]
    show Except.ok ((List.range' 0 (t :: ts).length).map
      (toTree (rootRecs (t :: ts) none 0).length (rootRecs (t :: ts) none 0))) = _
    rw [range_map_toTree (t :: ts) (rootRecs (t :: ts) none 0)
      (rootRecs (t :: ts) none 0).length 0
      (fun m t' hm => by
        obtain ⟨pr, hpr⟩ := rootRecs_get (t :: ts) none 0 m t' hm
        refine ⟨pr, ?_⟩
        rw [Nat.zero_add]
        exact hpr)
      h
      (by rw [rootRecs_length]; exact Nat.succ_pos _)]

/-- C7, witness: the amended round-trip theorem applied to the concrete
normalized two-root forest `C7data`, whose serialized form re-parses to
exactly the same forest (checked through the record triples). -/
theorem C7_witness :
    (∀ t ∈ C7data, FlatRoot t) ∧ fromMD (toMD C7data) = .ok C7data :=
  ⟨by decide, C7_amended C7data (by decide)⟩

end MD
